import Mathlib

/-!
Afina storage backend: `SimpleLRU` and `StripedLRU`.

A shallow embedding of `src/storage/SimpleLRU.h`, `src/storage/SimpleLRU.cpp`
and `src/storage/StripedLRU.h`.

* The free store is explicit: `heap` maps an address to the node living there
  (`none` once the node has been destroyed) and `brk` is the address the next
  `new` hands out.  A pointer is an `Option Nat`, `none` being `nullptr`.
* An operation whose C++ execution dereferences a null or dangling pointer has
  undefined behaviour; the embedding returns `none` for it.
* `std::size_t` is 64 bits wide and `int` 32 bits wide; arithmetic on them is
  written with explicit reductions.  The size of a `std::string` is bounded by
  `max_size()`, which is below `2 ^ 63`, so the sum of two string sizes is not
  reduced.
-/

namespace Afina
namespace Backend

/-- The node of the recency chain (`SimpleLRU.h`, `struct lru_node`): `prev` is
the raw back pointer, `next` the owning `std::unique_ptr`. -/
structure lru_node where
  key : String
  value : String
  prev : Option Nat
  next : Option Nat

/-- The free store: the node living at each address. -/
abbrev Heap := Nat → Option lru_node

/-- Addition of two `std::size_t` values. -/
def size_add (a b : Nat) : Nat := (a + b) % 2 ^ 64

/-- Subtraction of two `std::size_t` values. -/
def size_sub (a b : Nat) : Nat := (a + (2 ^ 64 - b % 2 ^ 64)) % 2 ^ 64

/-- Conversion of a `std::size_t` value to `int` (two's complement, the low 32
bits are kept). -/
def to_int (n : Nat) : Int :=
  if n % 2 ^ 32 < 2 ^ 31 then ((n % 2 ^ 32 : Nat) : Int) else ((n % 2 ^ 32 : Nat) : Int) - 2 ^ 32

/-- Conversion of an `int` to `std::size_t` (the usual arithmetic conversion in
`_cur_size + delta_sz`). -/
def to_size_t (i : Int) : Nat := (i % 2 ^ 64).toNat

/-- Destruction of the node a `std::unique_ptr` owns: the node is freed, and so
is, through the destructor of its `next` member, everything it owns in turn.
The first argument bounds the length of the ownership chain. -/
def destroy : Nat → Heap → Option Nat → Heap
  | 0, h, _ => h
  | _ + 1, h, none => h
  | fuel + 1, h, some a =>
    match h a with
    | none => h
    | some n => destroy fuel (Function.update h a none) n.next

/-- The raw store `p->prev = q`. -/
def set_prev (h : Heap) (p : Nat) (q : Option Nat) : Option Heap :=
  (h p).map fun n => Function.update h p (some { n with prev := q })

/-- The call `p->next.release()`, as it happens inside `std::move` out of
`p->next`: the pointer is handed over and `p->next` becomes null. -/
def release_next (h : Heap) (p : Nat) : Option (Option Nat × Heap) :=
  (h p).map fun n => (n.next, Function.update h p (some { n with next := none }))

/-- The call `p->next.reset(q)`: `p->next` becomes `q` and the node it owned
before is destroyed. -/
def reset_next (fuel : Nat) (h : Heap) (p : Nat) (q : Option Nat) : Option Heap :=
  (h p).map fun n => destroy fuel (Function.update h p (some { n with next := q })) n.next

/-- The class `SimpleLRU` (`SimpleLRU.h`), together with the free store its
nodes live in. -/
structure SimpleLRU where
  _max_size : Nat
  _cur_size : Nat
  _lru_head : Option Nat
  _lru_tail : Option Nat
  _lru_index : String → Option Nat
  heap : Heap
  brk : Nat

namespace SimpleLRU

/-- The constructor `SimpleLRU(size_t max_size)`. -/
def init (max_size : Nat) : SimpleLRU :=
  { _max_size := max_size, _cur_size := 0, _lru_head := none, _lru_tail := none,
    _lru_index := fun _ => none, heap := fun _ => none, brk := 0 }

/-- The call `_lru_head.reset(q)`. -/
def reset_head (s : SimpleLRU) (q : Option Nat) : SimpleLRU :=
  { s with _lru_head := q, heap := destroy s.brk s.heap s._lru_head }

/-- Function `SimpleLRU::delete_last` (SimpleLRU.cpp:7-22). -/
def delete_last (s : SimpleLRU) : Option SimpleLRU := do
  -- lru_node *del_node = _lru_tail;
  let del_node ← s._lru_tail
  let dn ← s.heap del_node
  -- std::size_t delta_sz = del_node->key.size() + del_node->value.size();
  let delta_sz := dn.key.length + dn.value.length
  -- _lru_index.erase(del_node->key);
  let s1 := { s with _lru_index := Function.update s._lru_index dn.key none }
  let s2 ←
    if s1._lru_head = some del_node then
      -- _lru_head.reset(nullptr);
      some (s1.reset_head none)
    else do
      -- _lru_tail = _lru_tail->prev;
      let t ← dn.prev
      -- _lru_tail->next.reset(nullptr);
      let h ← reset_next s1.brk s1.heap t none
      some { s1 with _lru_tail := some t, heap := h }
  -- _cur_size -= delta_sz;
  some { s2 with _cur_size := size_sub s2._cur_size delta_sz }

/-- Function `SimpleLRU::insert_node` (SimpleLRU.cpp:24-39). -/
def insert_node (s : SimpleLRU) (node : Nat) : Option SimpleLRU := do
  let s1 ←
    match s._lru_head with
    | some hd => do
      -- _lru_head.get()->prev = node;
      let h ← set_prev s.heap hd (some node)
      some { s with heap := h }
    | none =>
      -- _lru_tail = node;
      some { s with _lru_tail := some node }
  -- node->next = std::move(_lru_head);
  let moved := s1._lru_head
  let h ← reset_next s1.brk s1.heap node moved
  let s2 := { s1 with _lru_head := none, heap := h }
  -- _lru_head.reset(node);
  some (s2.reset_head (some node))

/-- The branch of `SimpleLRU::node_to_head` taken when `node` has no successor
(SimpleLRU.cpp:47-53); `nd` is the content of `*node` on entry. -/
def node_to_head_last (s : SimpleLRU) (node : Nat) (nd : lru_node) : Option SimpleLRU :=
  -- _lru_tail = node->prev;
  let s1 := { s with _lru_tail := nd.prev }
  -- _lru_head.get()->prev = node;
  s1._lru_head.bind fun hd =>
  (set_prev s1.heap hd (some node)).bind fun h1 =>
  -- node->next = std::move(_lru_head);
  (reset_next s1.brk h1 node s1._lru_head).bind fun h2 =>
  let s2 := { s1 with _lru_head := none, heap := h2 }
  -- _lru_head = std::move(node->prev->next);
  (s2.heap node).bind fun nd2 =>
  nd2.prev.bind fun p =>
  (release_next s2.heap p).bind fun r =>
  some ({ s2 with heap := r.2 }.reset_head r.1)

/-- First half of the branch of `SimpleLRU::node_to_head` taken when `node` has
a successor (SimpleLRU.cpp:55-57); `nd` is the content of `*node` on entry and
the local `tmp` holds the former `_lru_head` meanwhile. -/
def node_to_head_unlink (s : SimpleLRU) (node : Nat) (nd : lru_node) : Option SimpleLRU :=
  -- auto tmp = std::move(_lru_head);
  let s1 := { s with _lru_head := none }
  -- _lru_head = std::move(node->prev->next);
  nd.prev.bind fun p =>
  (release_next s1.heap p).bind fun r1 =>
  let s2 := { s1 with heap := r1.2 }.reset_head r1.1
  -- node->prev->next = std::move(node->next);
  (release_next s2.heap node).bind fun r2 =>
  (r2.2 node).bind fun nd2 =>
  nd2.prev.bind fun p2 =>
  (reset_next s2.brk r2.2 p2 r2.1).bind fun h3 =>
  some { s2 with heap := h3 }

/-- Second half of that branch (SimpleLRU.cpp:58-60); `tmp` is the local
holding the former `_lru_head`. -/
def node_to_head_relink (s : SimpleLRU) (node : Nat) (tmp : Option Nat) : Option SimpleLRU :=
  -- tmp.get()->prev = node;
  tmp.bind fun t =>
  (set_prev s.heap t (some node)).bind fun h4 =>
  -- node->next = std::move(tmp);
  (reset_next s.brk h4 node tmp).bind fun h5 =>
  -- node->prev->next->prev = node->prev;
  (h5 node).bind fun nd5 =>
  nd5.prev.bind fun p5 =>
  (h5 p5).bind fun pn =>
  pn.next.bind fun nx =>
  (set_prev h5 nx nd5.prev).bind fun h6 =>
  -- tmp, null by now, goes out of scope
  some { s with heap := h6 }

/-- The branch of `SimpleLRU::node_to_head` taken when `node` has a successor
(SimpleLRU.cpp:54-61); `nd` is the content of `*node` on entry. -/
def node_to_head_mid (s : SimpleLRU) (node : Nat) (nd : lru_node) : Option SimpleLRU :=
  (node_to_head_unlink s node nd).bind fun s3 => node_to_head_relink s3 node s._lru_head

/-- Function `SimpleLRU::node_to_head` (SimpleLRU.cpp:41-62). -/
def node_to_head (s : SimpleLRU) (node : Nat) : Option SimpleLRU :=
  if s._lru_head = some node then some s
  else
    (s.heap node).bind fun nd =>
    match nd.next with
    | none => node_to_head_last s node nd
    | some _ => node_to_head_mid s node nd

/-- The eviction loops `while (_cur_size + add > _max_size) delete_last();` of
`PutImpl` and `SetImpl`.  The second argument bounds the number of iterations;
the callers pass one more than the number of nodes ever allocated. -/
def evict_loop (add : Nat) : Nat → SimpleLRU → Option SimpleLRU
  | 0, s => if size_add s._cur_size add > s._max_size then none else some s
  | fuel + 1, s =>
    if size_add s._cur_size add > s._max_size then (delete_last s).bind (evict_loop add fuel)
    else some s

/-- Function `SimpleLRU::PutImpl` (SimpleLRU.cpp:64-78). -/
def PutImpl (s : SimpleLRU) (key value : String) (entry_size : Nat) : Option SimpleLRU := do
  -- while (_cur_size + entry_size > _max_size) delete_last();
  let s1 ← evict_loop entry_size (s.brk + 1) s
  -- lru_node *new_node = new lru_node{key, value, nullptr, nullptr};
  let new_node := s1.brk
  let s2 := { s1 with
    heap := Function.update s1.heap new_node (some ⟨key, value, none, none⟩), brk := s1.brk + 1 }
  -- insert_node(new_node);
  let s3 ← insert_node s2 new_node
  -- _lru_index.insert({new_node->key, *new_node});
  let s4 := { s3 with
    _lru_index :=
      if (s3._lru_index key).isSome then s3._lru_index
      else Function.update s3._lru_index key (some new_node) }
  -- _cur_size += entry_size;
  some { s4 with _cur_size := size_add s4._cur_size entry_size }

/-- Function `SimpleLRU::SetImpl` (SimpleLRU.cpp:80-92). -/
def SetImpl (s : SimpleLRU) (node : Nat) (value : String) : Option SimpleLRU := do
  -- int delta_sz = value.size() - node.value.size();
  let nd ← s.heap node
  let delta_sz : Int := to_int (size_sub value.length nd.value.length)
  -- node_to_head(&node);
  let s1 ← node_to_head s node
  -- while (_cur_size + delta_sz > _max_size) delete_last();
  let s2 ← evict_loop (to_size_t delta_sz) (s1.brk + 1) s1
  -- node.value = value;
  let nd2 ← s2.heap node
  let s3 := { s2 with heap := Function.update s2.heap node (some { nd2 with value := value }) }
  -- _cur_size += delta_sz;
  some { s3 with _cur_size := size_add s3._cur_size (to_size_t delta_sz) }

/-- Function `SimpleLRU::Put` (SimpleLRU.cpp:97-113). -/
def Put (s : SimpleLRU) (key value : String) : Option (Bool × SimpleLRU) :=
  let entry_size := key.length + value.length
  if entry_size > s._max_size then some (false, s)
  else
    match s._lru_index key with
    | some node => (SetImpl s node value).map fun s1 => (true, s1)
    | none => (PutImpl s key value entry_size).map fun s1 => (true, s1)

/-- Function `SimpleLRU::PutIfAbsent` (SimpleLRU.cpp:116-129). -/
def PutIfAbsent (s : SimpleLRU) (key value : String) : Option (Bool × SimpleLRU) :=
  let entry_size := key.length + value.length
  if entry_size > s._max_size then some (false, s)
  else
    match s._lru_index key with
    | none => (PutImpl s key value entry_size).map fun s1 => (true, s1)
    | some _ => some (false, s)

/-- Function `SimpleLRU::Set` (SimpleLRU.cpp:131-144).  The branch that calls `SetImpl`
reaches the closing brace of the function without a `return` statement, so the
value the caller receives is indeterminate: the result is `none` there. -/
def Set (s : SimpleLRU) (key value : String) : Option (Option Bool × SimpleLRU) :=
  let entry_size := key.length + value.length
  if entry_size > s._max_size then some (some false, s)
  else
    match s._lru_index key with
    | some node => (SetImpl s node value).map fun s1 => (none, s1)
    | none => some (some false, s)

/-- Function `SimpleLRU::Delete` (SimpleLRU.cpp:146-176). -/
def Delete (s : SimpleLRU) (key : String) : Option (Bool × SimpleLRU) :=
  match s._lru_index key with
  | none => some (false, s)
  | some node => do
    -- _lru_index.erase(tmp);
    let s1 := { s with _lru_index := Function.update s._lru_index key none }
    -- std::size_t node_size = node->key.size() + node->value.size();
    let nd ← s1.heap node
    let node_size := nd.key.length + nd.value.length
    let s2 ←
      if s1._lru_head = some node then
        match nd.next with
        | none =>
          -- _lru_head.reset(); _lru_tail = nullptr;
          some { s1.reset_head none with _lru_tail := none }
        | some nx => do
          -- node->next.get()->prev = nullptr;
          let h1 ← set_prev s1.heap nx none
          -- _lru_head = std::move(node->next);
          let (q, h2) ← release_next h1 node
          some ({ s1 with heap := h2 }.reset_head q)
      else
        match nd.next with
        | none => do
          -- _lru_tail = node->prev;
          let p ← nd.prev
          -- node->prev->next.reset();
          let h1 ← reset_next s1.brk s1.heap p none
          some { s1 with _lru_tail := some p, heap := h1 }
        | some nx => do
          -- node->next.get()->prev = node->prev;
          let h1 ← set_prev s1.heap nx nd.prev
          -- node->prev->next = std::move(node->next);
          let (q, h2) ← release_next h1 node
          let nd2 ← h2 node
          let p ← nd2.prev
          let h3 ← reset_next s1.brk h2 p q
          some { s1 with heap := h3 }
    -- _cur_size -= node_size;
    some (true, { s2 with _cur_size := size_sub s2._cur_size node_size })

/-- Function `SimpleLRU::Get` (SimpleLRU.cpp:179-188).  The argument `value` is the
content of the caller's output string before the call, the second component of
the result its content afterwards. -/
def Get (s : SimpleLRU) (key : String) (value : String) : Option (Bool × String × SimpleLRU) :=
  match s._lru_index key with
  | none => some (false, value, s)
  | some node => do
    -- value = node->second.get().value;
    let nd ← s.heap node
    -- node_to_head(&node->second.get());
    let s1 ← node_to_head s node
    some (true, nd.value, s1)

/-- One call of the public interface; `Get` carries the content of the
caller's output string before the call. -/
inductive Call where
  | Put (key value : String)
  | PutIfAbsent (key value : String)
  | Set (key value : String)
  | Delete (key : String)
  | Get (key value : String)

/-- The state a call leaves behind, whatever it returns. -/
def step (s : SimpleLRU) : Call → Option SimpleLRU
  | Call.Put k v => (s.Put k v).map fun r => r.2
  | Call.PutIfAbsent k v => (s.PutIfAbsent k v).map fun r => r.2
  | Call.Set k v => (s.Set k v).map fun r => r.2
  | Call.Delete k => (s.Delete k).map fun r => r.2
  | Call.Get k v => (s.Get k v).map fun r => r.2.2

/-- The flag a call returns (`none` when it is indeterminate) and the state it
leaves behind. -/
def result (s : SimpleLRU) : Call → Option (Option Bool × SimpleLRU)
  | Call.Put k v => (s.Put k v).map fun r => (some r.1, r.2)
  | Call.PutIfAbsent k v => (s.PutIfAbsent k v).map fun r => (some r.1, r.2)
  | Call.Set k v => s.Set k v
  | Call.Delete k => (s.Delete k).map fun r => (some r.1, r.2)
  | Call.Get k v => (s.Get k v).map fun r => (some r.1, r.2.2)

/-- A sequence of calls, issued one after the other. -/
def run (s : SimpleLRU) : List Call → Option SimpleLRU
  | [] => some s
  | c :: cs => (step s c).bind fun s1 => run s1 cs

/-- The states a cache constructed with capacity `C` can be in between two
calls. -/
def Reachable (C : Nat) (s : SimpleLRU) : Prop :=
  ∃ cs : List Call, run (init C) cs = some s

/-- The addresses met when following `next` from the pointer given, at most as
many as the first argument says. -/
def walk (h : Heap) : Nat → Option Nat → List Nat
  | 0, _ => []
  | _ + 1, none => []
  | fuel + 1, some a =>
    match h a with
    | none => []
    | some n => a :: walk h fuel n.next

/-- The addresses of the recency chain, head first. -/
def chain (s : SimpleLRU) : List Nat := walk s.heap s.brk s._lru_head

/-- The nodes of the recency chain, head first. -/
def nodes (s : SimpleLRU) : List lru_node := s.chain.filterMap s.heap

/-- The entries (key, value) of the recency chain, head first. -/
def entries (s : SimpleLRU) : List (String × String) :=
  s.nodes.map fun n => (n.key, n.value)

/-- The number of bytes an entry accounts for: `key.size() + value.size()`. -/
def entry_size (e : String × String) : Nat := e.1.length + e.2.length

/-- The bytes held by the entries of the recency chain. -/
def total_size (s : SimpleLRU) : Nat := (s.entries.map entry_size).sum

/-- The longest prefix of a list of entries that fits into `room` bytes. -/
def longest_fit : Nat → List (String × String) → List (String × String)
  | _, [] => []
  | room, e :: es => if entry_size e ≤ room then e :: longest_fit (room - entry_size e) es else []

end SimpleLRU

/-- A node of the abstract chain: its address, key and value. -/
abbrev Cell := Nat × String × String

/-- The pointer to the first node of a run, `e` when the run is empty. -/
def next_ptr (l : List Cell) (e : Option Nat) : Option Nat :=
  match l with
  | [] => e
  | c :: _ => some c.1

/-- The pointer to the last node of a run, `pp` when the run is empty. -/
def last_ptr (l : List Cell) (pp : Option Nat) : Option Nat :=
  match l.getLast? with
  | none => pp
  | some c => some c.1

/-- The nodes of `l` lie in the heap, linked by `next` in this order with the
last one pointing to `e`.  When `pp` is a node, the `prev` of the first node
is `pp`; every later node has the node before it as its `prev`. -/
def Run (h : Heap) : Option Nat → List Cell → Option Nat → Prop
  | _, [], _ => True
  | pp, c :: l, e =>
    (∃ p, h c.1 = some ⟨c.2.1, c.2.2, p, next_ptr l e⟩ ∧ ∀ q, pp = some q → p = some q) ∧
      Run h (some c.1) l e

/-- The representation invariant: the heap holds exactly the nodes of `L`,
linked into a chain from `_lru_head`, and the index maps exactly the keys of
`L` to their nodes.  The `prev` of the head node is left open. -/
structure WF (s : SimpleLRU) (L : List Cell) : Prop where
  head : s._lru_head = next_ptr L none
  tail : ∀ c ∈ L.getLast?, s._lru_tail = some c.1
  run : Run s.heap none L none
  nodup : (L.map fun c => c.1).Nodup
  keys : (L.map fun c => c.2.1).Nodup
  index : ∀ k a, s._lru_index k = some a ↔ ∃ v, (a, k, v) ∈ L
  live : ∀ a, s.heap a ≠ none → a ∈ L.map fun c => c.1
  bound : ∀ a ∈ L.map fun c => c.1, a < s.brk

/-- The bytes a node of the abstract chain accounts for. -/
def csize (c : Cell) : Nat := c.2.1.length + c.2.2.length

/-- The representation invariant together with exact size accounting:
`_cur_size` is the number of bytes in the chain and does not exceed the
capacity. -/
structure Sized (s : SimpleLRU) (L : List Cell) : Prop where
  wf : WF s L
  cur : s._cur_size = (L.map csize).sum
  le : (L.map csize).sum ≤ s._max_size

/-- Two heaps with the same live addresses. -/
def SameDom (h h2 : Heap) : Prop := ∀ a, h2 a = none ↔ h a = none

/-- A value of 4 GiB. -/
def big_value : String := String.mk (List.replicate (2 ^ 32) 'a')

/-- A value two bytes short of 4 GiB. -/
def big_value2 : String := String.mk (List.replicate (2 ^ 32 - 2) 'a')

/-- The cache holding the single entry `(k, v)` at address 0, with the given
capacity and `_cur_size`. -/
def single (C cur : Nat) (k v : String) : SimpleLRU :=
  { _max_size := C, _cur_size := cur, _lru_head := some 0, _lru_tail := some 0,
    _lru_index := Function.update (fun _ => none) k (some 0),
    heap := Function.update (fun _ => none) 0 (some ⟨k, v, none, none⟩), brk := 1 }

/-- The state after the calls given, from a fresh cache of capacity `C` (the
fresh cache itself should a call have no defined behaviour). -/
def after (C : Nat) (cs : List SimpleLRU.Call) : SimpleLRU :=
  ((SimpleLRU.init C).run cs).getD (SimpleLRU.init C)

/-- Modelled from the spec: the class `ThreadSafeSimplLRU` of
`ThreadSafeSimpleLRU.h`, which is not among the sources.  It wraps one
`SimpleLRU` and forwards each of the five operations to it while holding its
lock; driven by one caller at a time it behaves as the cache it wraps. -/
structure ThreadSafeSimplLRU where
  storage : SimpleLRU

namespace ThreadSafeSimplLRU

/-- Modelled from the spec: the constructor `ThreadSafeSimplLRU(max_size)`,
which constructs the wrapped `SimpleLRU(max_size)`. -/
def init (max_size : Nat) : ThreadSafeSimplLRU := ⟨SimpleLRU.init max_size⟩

/-- Modelled from the spec: forwarding of a call to the wrapped cache. -/
def lift {α : Type} (t : ThreadSafeSimplLRU) (op : SimpleLRU → Option (α × SimpleLRU)) :
    Option (α × ThreadSafeSimplLRU) :=
  (op t.storage).map fun r => (r.1, ⟨r.2⟩)

/-- Modelled from the spec: `ThreadSafeSimplLRU::Put`. -/
def Put (t : ThreadSafeSimplLRU) (key value : String) : Option (Bool × ThreadSafeSimplLRU) :=
  t.lift fun s => s.Put key value

/-- Modelled from the spec: `ThreadSafeSimplLRU::PutIfAbsent`. -/
def PutIfAbsent (t : ThreadSafeSimplLRU) (key value : String) :
    Option (Bool × ThreadSafeSimplLRU) :=
  t.lift fun s => s.PutIfAbsent key value

/-- Modelled from the spec: `ThreadSafeSimplLRU::Set`. -/
def Set (t : ThreadSafeSimplLRU) (key value : String) :
    Option (Option Bool × ThreadSafeSimplLRU) :=
  t.lift fun s => s.Set key value

/-- Modelled from the spec: `ThreadSafeSimplLRU::Delete`. -/
def Delete (t : ThreadSafeSimplLRU) (key : String) : Option (Bool × ThreadSafeSimplLRU) :=
  t.lift fun s => s.Delete key

/-- Modelled from the spec: `ThreadSafeSimplLRU::Get`; the result pairs the
returned flag with the content of the caller's output string. -/
def Get (t : ThreadSafeSimplLRU) (key value : String) :
    Option ((Bool × String) × ThreadSafeSimplLRU) :=
  t.lift fun s => (s.Get key value).map fun r => ((r.1, r.2.1), r.2.2)

end ThreadSafeSimplLRU

/-- The class `StripedLRU` (`StripedLRU.h`).  The member `hash` is a
`std::hash<std::string>`, a function from strings to `std::size_t` the
standard leaves open. -/
structure StripedLRU where
  count : Nat
  shards : List ThreadSafeSimplLRU
  hash : String → Nat

namespace StripedLRU

/-- The constructor `StripedLRU(count, str_max_size)` (StripedLRU.h:46-52):
the loop appends `count` shards. -/
def init (hash : String → Nat) (count str_max_size : Nat) : StripedLRU :=
  { count := count,
    shards := (List.range count).foldl
      (fun acc _ => acc ++ [ThreadSafeSimplLRU.init str_max_size]) [],
    hash := hash }

/-- The index expression `hash(key) % count`. -/
def shard_index (st : StripedLRU) (key : String) : Nat := st.hash key % st.count

/-- The call `shards[hash(key) % count]->op(...)` every operation consists of
(StripedLRU.h:22-40).  The remainder by zero and an index beyond the vector
have no defined behaviour. -/
def forward {α : Type} (st : StripedLRU) (key : String)
    (op : ThreadSafeSimplLRU → Option (α × ThreadSafeSimplLRU)) : Option (α × StripedLRU) :=
  if st.count = 0 then none
  else
    st.shards[st.shard_index key]?.bind fun sh =>
    (op sh).map fun r => (r.1, { st with shards := st.shards.set (st.shard_index key) r.2 })

/-- Function `StripedLRU::Put` (StripedLRU.h:22-24). -/
def Put (st : StripedLRU) (key value : String) : Option (Bool × StripedLRU) :=
  st.forward key fun sh => sh.Put key value

/-- Function `StripedLRU::PutIfAbsent` (StripedLRU.h:26-28). -/
def PutIfAbsent (st : StripedLRU) (key value : String) : Option (Bool × StripedLRU) :=
  st.forward key fun sh => sh.PutIfAbsent key value

/-- Function `StripedLRU::Set` (StripedLRU.h:30-32). -/
def Set (st : StripedLRU) (key value : String) : Option (Option Bool × StripedLRU) :=
  st.forward key fun sh => sh.Set key value

/-- Function `StripedLRU::Delete` (StripedLRU.h:34-36). -/
def Delete (st : StripedLRU) (key : String) : Option (Bool × StripedLRU) :=
  st.forward key fun sh => sh.Delete key

/-- Function `StripedLRU::Get` (StripedLRU.h:38-40). -/
def Get (st : StripedLRU) (key value : String) : Option ((Bool × String) × StripedLRU) :=
  st.forward key fun sh => sh.Get key value

end StripedLRU

/-- What a call of `Make_stor` ends in: the exception thrown or the cache
returned. -/
inductive Made where
  | thrown (what : String)
  | made (st : StripedLRU)

/-- Function `Make_stor` (StripedLRU.h:55-62); `count` and `max_size` are `std::size_t`
values, and the division by a zero `count` has no defined behaviour. -/
def Make_stor (hash : String → Nat) (count max_size : Nat) : Option Made :=
  if count = 0 then none
  else
    -- std::size_t limit = max_size / count;
    let limit := max_size / count
    if limit < 2 * 1024 * 1024 then some (Made.thrown "Small storage!")
    else some (Made.made (StripedLRU.init hash count limit))

open SimpleLRU

theorem destroy_none (f : Nat) (h : Heap) : destroy f h none = h := by
  cases f <;> rfl

theorem destroy_leaf (f : Nat) (h : Heap) (a : Nat) (n : lru_node)
    (ha : h a = some n) (hn : n.next = none) :
    destroy (f + 1) h (some a) = Function.update h a none := by
  simp [destroy, ha, hn, destroy_none]

theorem Run.frame {h h2 : Heap} {pp : Option Nat} {l : List Cell} {e : Option Nat}
    (hf : ∀ c ∈ l, h2 c.1 = h c.1) (hr : Run h pp l e) : Run h2 pp l e := by
  induction l generalizing pp with
  | nil => trivial
  | cons c l ih =>
    obtain ⟨⟨p, hp, hq⟩, hr2⟩ := hr
    refine ⟨⟨p, ?_, hq⟩, ih (fun d hd => hf d (List.mem_cons_of_mem _ hd)) hr2⟩
    rw [hf c (List.mem_cons_self _ _)]; exact hp

theorem Run.update_notin {h : Heap} {pp : Option Nat} {l : List Cell} {e : Option Nat}
    (a : Nat) (x : Option lru_node) (ha : a ∉ l.map fun c => c.1) (hr : Run h pp l e) :
    Run (Function.update h a x) pp l e := by
  refine hr.frame fun c hc => ?_
  have : c.1 ≠ a := fun hEq => ha (hEq ▸ List.mem_map_of_mem (fun c : Cell => c.1) hc)
  simp [Function.update, this]

theorem Run.weaken {h : Heap} {pp : Option Nat} {l : List Cell} {e : Option Nat}
    (hr : Run h pp l e) : Run h none l e := by
  cases l with
  | nil => trivial
  | cons c l =>
    obtain ⟨⟨p, hp, _⟩, hr2⟩ := hr
    exact ⟨⟨p, hp, fun q hq => by cases hq⟩, hr2⟩

theorem last_ptr_cons (c : Cell) (l : List Cell) (pp : Option Nat) :
    last_ptr (c :: l) pp = last_ptr l (some c.1) := by
  cases l with
  | nil => simp [last_ptr]
  | cons d l =>
    have h : (d :: l).getLast? = some ((d :: l).getLast (by simp)) := List.getLast?_eq_getLast _ _
    simp only [last_ptr, List.getLast?_cons_cons, h]

theorem next_ptr_append (l1 l2 : List Cell) (e : Option Nat) :
    next_ptr (l1 ++ l2) e = next_ptr l1 (next_ptr l2 e) := by
  cases l1 <;> simp [next_ptr]

theorem Run.append_iff {h : Heap} {pp : Option Nat} {l1 l2 : List Cell} {e : Option Nat} :
    Run h pp (l1 ++ l2) e ↔ Run h pp l1 (next_ptr l2 e) ∧ Run h (last_ptr l1 pp) l2 e := by
  induction l1 generalizing pp with
  | nil => simp [Run, last_ptr]
  | cons c l ih =>
    rw [List.cons_append]
    show (_ ∧ Run h (some c.1) (l ++ l2) e) ↔ _
    rw [ih, next_ptr_append, last_ptr_cons]
    simp only [Run, and_assoc]

theorem Run.set_first_prev {h : Heap} {pp pp2 : Option Nat} {c : Cell} {l : List Cell}
    {e : Option Nat} {n : lru_node} (q2 : Option Nat)
    (hr : Run h pp (c :: l) e) (hn : h c.1 = some n) (hc : c.1 ∉ l.map fun c => c.1)
    (hq : ∀ q, pp2 = some q → q2 = some q) :
    Run (Function.update h c.1 (some { n with prev := q2 })) pp2 (c :: l) e := by
  obtain ⟨⟨p, hp, _⟩, hr2⟩ := hr
  rw [hn] at hp
  cases hp
  exact ⟨⟨q2, by simp, hq⟩, hr2.update_notin _ _ hc⟩

theorem Run.set_last_next {h : Heap} {pp : Option Nat} {c : Cell} {l : List Cell}
    {e : Option Nat} {n : lru_node} (e2 : Option Nat)
    (hr : Run h pp (l ++ [c]) e) (hn : h c.1 = some n) (hc : c.1 ∉ l.map fun c => c.1) :
    Run (Function.update h c.1 (some { n with next := e2 })) pp (l ++ [c]) e2 := by
  induction l generalizing pp with
  | nil =>
    obtain ⟨⟨p, hp, hq⟩, _⟩ := hr
    rw [hn] at hp
    cases hp
    exact ⟨⟨p, by simp [next_ptr], hq⟩, trivial⟩
  | cons d l ih =>
    obtain ⟨⟨p, hp, hq⟩, hr2⟩ := hr
    simp only [List.map_cons, List.mem_cons, not_or] at hc
    have hne : d.1 ≠ c.1 := fun hEq => hc.1 hEq.symm
    refine ⟨⟨p, ?_, hq⟩, ih hr2 hc.2⟩
    simp only [Function.update, hne, dite_false]
    rw [hp]
    cases l <;> simp [next_ptr]

theorem Run.set_first_value {h : Heap} {pp : Option Nat} {c : Cell} {l : List Cell}
    {e : Option Nat} {n : lru_node} (v : String)
    (hr : Run h pp (c :: l) e) (hn : h c.1 = some n) (hc : c.1 ∉ l.map fun c => c.1) :
    Run (Function.update h c.1 (some { n with value := v })) pp ((c.1, c.2.1, v) :: l) e := by
  obtain ⟨⟨p, hp, hq⟩, hr2⟩ := hr
  rw [hn] at hp
  cases hp
  exact ⟨⟨p, by simp, hq⟩, hr2.update_notin _ _ hc⟩

theorem Run.lookup {h : Heap} {pp : Option Nat} {l : List Cell} {e : Option Nat}
    (hr : Run h pp l e) {c : Cell} (hc : c ∈ l) :
    ∃ n, h c.1 = some n ∧ n.key = c.2.1 ∧ n.value = c.2.2 := by
  induction l generalizing pp with
  | nil => cases hc
  | cons d l ih =>
    obtain ⟨⟨p, hp, _⟩, hr2⟩ := hr
    rcases List.mem_cons.1 hc with rfl | hc
    · exact ⟨_, hp, rfl, rfl⟩
    · exact ih hr2 hc

theorem mem_remove_iff {L1 L2 : List Cell} {c : Cell}
    (hk : ((L1 ++ c :: L2).map fun c => c.2.1).Nodup) (x : Cell) :
    x ∈ L1 ++ L2 ↔ x ∈ L1 ++ c :: L2 ∧ x.2.1 ≠ c.2.1 := by
  rw [List.map_append, List.map_cons, List.nodup_append, List.nodup_cons] at hk
  obtain ⟨_, ⟨h2, _⟩, h3⟩ := hk
  have h1 : x ∈ L1 → x.2.1 ≠ c.2.1 := fun hx hEq =>
    h3 (List.mem_map_of_mem (fun c : Cell => c.2.1) hx) (hEq ▸ List.mem_cons_self _ _)
  have h2 : x ∈ L2 → x.2.1 ≠ c.2.1 := fun hx hEq =>
    h2 (hEq ▸ List.mem_map_of_mem (fun c : Cell => c.2.1) hx)
  simp only [List.mem_append, List.mem_cons]
  constructor
  · rintro (hx | hx)
    · exact ⟨Or.inl hx, h1 hx⟩
    · exact ⟨Or.inr (Or.inr hx), h2 hx⟩
  · rintro ⟨hx | rfl | hx, hne⟩
    · exact Or.inl hx
    · exact absurd rfl hne
    · exact Or.inr hx

theorem index_remove {idx : String → Option Nat} {L L2 : List Cell} {c : Cell}
    (hidx : ∀ k a, idx k = some a ↔ ∃ v, (a, k, v) ∈ L)
    (hm : ∀ x : Cell, x ∈ L2 ↔ x ∈ L ∧ x.2.1 ≠ c.2.1) (k : String) (a : Nat) :
    Function.update idx c.2.1 none k = some a ↔ ∃ v, (a, k, v) ∈ L2 := by
  by_cases hk : k = c.2.1
  · subst hk
    rw [Function.update_same]
    exact ⟨fun h => (by cases h), fun ⟨v, hv⟩ => absurd rfl ((hm _).1 hv).2⟩
  · rw [Function.update_noteq hk, hidx]
    constructor
    · rintro ⟨v, hv⟩; exact ⟨v, (hm _).2 ⟨hv, hk⟩⟩
    · rintro ⟨v, hv⟩; exact ⟨v, ((hm _).1 hv).1⟩
theorem list_snoc_cases {α : Type} (L : List α) : L = [] ∨ ∃ L0 d, L = L0 ++ [d] := by
  rcases List.eq_nil_or_concat L with h | ⟨L0, d, h⟩
  · exact Or.inl h
  · exact Or.inr ⟨L0, d, by simpa using h⟩

theorem WF.brk_pos {s : SimpleLRU} {L : List Cell} (hw : WF s L) {c : Cell} (hc : c ∈ L) :
    ∃ f, s.brk = f + 1 := by
  have := hw.bound c.1 (List.mem_map_of_mem (fun c : Cell => c.1) hc)
  exact ⟨s.brk - 1, by omega⟩

theorem delete_last_wf {s : SimpleLRU} {L : List Cell} {c : Cell} (hw : WF s (L ++ [c])) :
    ∃ s2, s.delete_last = some s2 ∧ WF s2 L ∧
      s2._cur_size = size_sub s._cur_size (c.2.1.length + c.2.2.length) ∧
      s2._max_size = s._max_size ∧ s2.brk = s.brk := by
  obtain ⟨hhead, htail, hrun, hnd, hkeys, hidx, hlive, hbound⟩ := hw
  have htl : s._lru_tail = some c.1 := htail c (by simp)
  obtain ⟨f, hf⟩ := WF.brk_pos ⟨hhead, htail, hrun, hnd, hkeys, hidx, hlive, hbound⟩
    (c := c) (by simp)
  rw [Run.append_iff] at hrun
  obtain ⟨hr1, ⟨p, hp, hq⟩, _⟩ := hrun
  have hm : ∀ x : Cell, x ∈ L ++ [] ↔ x ∈ L ++ [c] ∧ x.2.1 ≠ c.2.1 :=
    mem_remove_iff hkeys
  simp only [List.append_nil] at hm
  have hnd2 : c.1 ∉ L.map (fun c => c.1) ∧ (L.map fun c => c.1).Nodup := by
    simp only [List.map_append, List.map_cons, List.map_nil, List.nodup_append,
      List.nodup_cons, List.disjoint_singleton] at hnd
    simpa using And.intro hnd.2.2 hnd.1
  have hkeys2 : (L.map fun c => c.2.1).Nodup := by
    simp only [List.map_append, List.nodup_append] at hkeys
    exact hkeys.1
  rcases list_snoc_cases L with rfl | ⟨L0, d, rfl⟩
  · -- the chain has one node
    have hh : s._lru_head = some c.1 := by simpa [next_ptr] using hhead
    simp only [next_ptr] at hp
    simp [delete_last, htl, hp, hh, reset_head, hf, destroy_leaf f _ _ _ hp rfl]
    refine ⟨rfl, by simp, trivial, by simp, by simp, ?_, ?_, by simp⟩
    · intro k a
      simpa using index_remove hidx hm k a
    · intro a ha
      simp only at ha
      by_cases hac : a = c.1
      · subst hac; simp at ha
      · rw [Function.update_noteq hac] at ha
        have := hlive a ha
        simp at this
        exact absurd this hac
  · -- the chain has a node before the last
    have hcd : c.1 ≠ d.1 := by
      intro h; apply hnd2.1; simp [h]
    have hne : s._lru_head ≠ some c.1 := by
      rw [hhead]
      cases L0 with
      | nil => simpa [next_ptr] using fun h => hcd h.symm
      | cons x L0 =>
        have : c.1 ≠ x.1 := by
          intro h; apply hnd2.1; simp [h]
        simpa [next_ptr] using fun h => this h.symm
    have hpd : p = some d.1 := hq d.1 (by simp [last_ptr])
    subst hpd
    obtain ⟨n, hn, -, -⟩ := hr1.lookup (c := d) (by simp)
    have hdn : n.next = some c.1 := by
      rw [Run.append_iff] at hr1
      obtain ⟨-, ⟨p, hp2, -⟩, -⟩ := hr1
      rw [hn] at hp2
      cases hp2
      simp [next_ptr]
    simp only [next_ptr] at hp
    have hp3 : Function.update s.heap d.1 (some { n with next := none }) c.1 = _ :=
      (Function.update_noteq hcd _ _).trans hp
    simp [delete_last, htl, hp, hne, reset_next, hn, hdn, hf, destroy_leaf f _ _ _ hp3 rfl]
    have hdn0 : d.1 ∉ L0.map fun c => c.1 := by
      have := hnd2.2
      simp only [List.map_append, List.map_cons, List.map_nil, List.nodup_append,
        List.disjoint_singleton] at this
      exact this.2.2
    refine ⟨?_, by simp, ?_, hnd2.2, hkeys2, index_remove hidx hm, ?_, ?_⟩
    · rw [hhead]; cases L0 <;> simp [next_ptr]
    · exact (hr1.set_last_next none hn hdn0).update_notin c.1 none hnd2.1
    · intro a ha
      simp only at ha
      by_cases hac : a = c.1
      · subst hac; simp at ha
      · rw [Function.update_noteq hac] at ha
        have hl : s.heap a ≠ none := by
          by_cases had : a = d.1
          · subst had; simp [hn]
          · rwa [Function.update_noteq had] at ha
        have := hlive a hl
        simp only [List.map_append, List.mem_append, List.map_cons, List.map_nil,
          List.mem_singleton] at this ⊢
        rcases this with h | h
        · exact h
        · exact absurd h hac
    · intro a ha
      simp only
      rw [← hf]
      exact hbound a (by rw [List.map_append]; exact List.mem_append_left _ ha)

theorem delete_last_nil {s : SimpleLRU} (hw : WF s []) : s.delete_last = none := by
  have hl : ∀ a, s.heap a = none := fun a => by
    by_contra h
    simpa using hw.live a h
  cases ht : s._lru_tail with
  | none => simp [delete_last, ht]
  | some t => simp [delete_last, ht, hl t]

theorem WF.fresh {s : SimpleLRU} {L : List Cell} (hw : WF s L) :
    s.brk ∉ (L.map fun c => c.1) ∧ s.heap s.brk = none := by
  have h1 : s.brk ∉ (L.map fun c => c.1) := fun h => Nat.lt_irrefl _ (hw.bound _ h)
  refine ⟨h1, ?_⟩
  by_contra h
  exact h1 (hw.live _ h)

theorem index_insert {idx : String → Option Nat} {L : List Cell} {b : Nat} {k v : String}
    (hidx : ∀ k a, idx k = some a ↔ ∃ v, (a, k, v) ∈ L)
    (hk : k ∉ L.map fun c => c.2.1) (k2 : String) (a : Nat) :
    Function.update idx k (some b) k2 = some a ↔ ∃ v2, (a, k2, v2) ∈ (b, k, v) :: L := by
  by_cases h : k2 = k
  · subst h
    rw [Function.update_same]
    constructor
    · intro h; cases h; exact ⟨v, List.mem_cons_self _ _⟩
    · rintro ⟨v2, hv2⟩
      rcases List.mem_cons.1 hv2 with h | h
      · cases h; rfl
      · exact absurd (List.mem_map_of_mem (fun c : Cell => c.2.1) h) hk
  · rw [Function.update_noteq h, hidx]
    constructor
    · rintro ⟨v2, hv2⟩; exact ⟨v2, List.mem_cons_of_mem _ hv2⟩
    · rintro ⟨v2, hv2⟩
      rcases List.mem_cons.1 hv2 with h2 | h2
      · cases h2; exact absurd rfl h
      · exact ⟨v2, h2⟩

theorem PutImpl_wf {s s1 : SimpleLRU} {L1 : List Cell} {k v : String} {es : Nat}
    (he : evict_loop es (s.brk + 1) s = some s1) (hw : WF s1 L1)
    (hk : k ∉ L1.map fun c => c.2.1) :
    ∃ s2, s.PutImpl k v es = some s2 ∧ WF s2 ((s1.brk, k, v) :: L1) ∧
      s2._cur_size = size_add s1._cur_size es ∧ s2._max_size = s1._max_size := by
  obtain ⟨hfresh, hfree⟩ := hw.fresh
  obtain ⟨hhead, htail, hrun, hnd, hkeys, hidx, hlive, hbound⟩ := hw
  have hik : s1._lru_index k = none := by
    cases hi : s1._lru_index k with
    | none => rfl
    | some a =>
      obtain ⟨v2, hv2⟩ := (hidx k a).1 hi
      exact absurd (List.mem_map_of_mem (fun c : Cell => c.2.1) hv2) hk
  cases L1 with
  | nil =>
    have hh : s1._lru_head = none := by simpa [next_ptr] using hhead
    simp [PutImpl, he, insert_node, hh, reset_next, reset_head, destroy_none, hik]
    refine ⟨rfl, by simp, ⟨⟨none, by simp [next_ptr], fun q hq => by cases hq⟩, trivial⟩,
      by simp, by simp, index_insert hidx hk, ?_, by simp⟩
    intro a ha
    simp only at ha
    by_cases hab : a = s1.brk
    · simp [hab]
    · rw [Function.update_noteq hab] at ha
      simpa using hlive a ha
  | cons c L =>
    have hh : s1._lru_head = some c.1 := by simpa [next_ptr] using hhead
    obtain ⟨⟨p, hp, -⟩, hr2⟩ := hrun
    have hcb : c.1 ≠ s1.brk := by
      intro h; apply hfresh; simp [← h]
    simp [PutImpl, he, insert_node, hh, reset_next, reset_head, destroy_none, hik, set_prev,
      Function.update_noteq hcb, hp, Function.update_noteq hcb.symm]
    have hcL : ∀ d ∈ L, d.1 ≠ c.1 ∧ d.1 ≠ s1.brk := by
      intro d hd
      constructor
      · intro h
        simp only [List.map_cons, List.nodup_cons] at hnd
        exact hnd.1 (h ▸ List.mem_map_of_mem (fun c : Cell => c.1) hd)
      · intro h
        apply hfresh
        simp only [List.map_cons, List.mem_cons]
        exact Or.inr (h ▸ List.mem_map_of_mem (fun c : Cell => c.1) hd)
    refine ⟨rfl, ?_, ⟨⟨none, by simp [next_ptr], fun q hq => by cases hq⟩,
      ⟨some s1.brk, by simp [Function.update_noteq hcb], fun q hq => hq⟩, ?_⟩, ?_, ?_,
      index_insert hidx hk, ?_, ?_⟩
    · intro d hd
      apply htail
      rw [List.getLast?_cons_cons] at hd
      exact hd
    · refine hr2.frame fun d hd => ?_
      obtain ⟨h1, h2⟩ := hcL d hd
      simp [Function.update_noteq h1, Function.update_noteq h2]
    · simp only [List.map_cons, List.nodup_cons]
      exact ⟨hfresh, by simpa using hnd⟩
    · simp only [List.map_cons, List.nodup_cons]
      exact ⟨hk, by simpa using hkeys⟩
    · intro a ha
      simp only at ha
      by_cases hab : a = s1.brk
      · simp [hab]
      · rw [Function.update_noteq hab] at ha
        by_cases hac : a = c.1
        · simp [hac]
        · rw [Function.update_noteq hac, Function.update_noteq hab] at ha
          exact List.mem_cons_of_mem _ (hlive a ha)
    · intro a ha
      rcases List.mem_cons.1 ha with h | h
      · simp [h]
      · exact Nat.lt_succ_of_lt (hbound a h)

theorem evict_loop_wf (add : Nat) (fuel : Nat) {s s1 : SimpleLRU} {L : List Cell}
    (hw : WF s L) (he : evict_loop add fuel s = some s1) :
    ∃ m, m ≤ L.length ∧ WF s1 (L.take m) ∧ s1._max_size = s._max_size ∧ s1.brk = s.brk ∧
      size_add s1._cur_size add ≤ s1._max_size := by
  induction fuel generalizing s L with
  | zero =>
    by_cases hc : size_add s._cur_size add > s._max_size
    · simp [evict_loop, hc] at he
    · simp only [evict_loop, hc, if_false, Option.some.injEq] at he
      subst he
      exact ⟨L.length, le_refl _, by simpa using hw, rfl, rfl, not_lt.1 hc⟩
  | succ fuel ih =>
    by_cases hc : size_add s._cur_size add > s._max_size
    · simp only [evict_loop, hc, if_true] at he
      rcases list_snoc_cases L with rfl | ⟨L0, c, rfl⟩
      · simp [delete_last_nil hw] at he
      · obtain ⟨s2, h2, hw2, -, hm2, hb2⟩ := delete_last_wf hw
        rw [h2, Option.some_bind] at he
        obtain ⟨m, hm, hwm, h3, h4, h5⟩ := ih hw2 he
        refine ⟨m, ?_, ?_, h3.trans hm2, h4.trans hb2, h5⟩
        · simp only [List.length_append]; omega
        · rwa [List.take_append_of_le_length hm]
    · simp only [evict_loop, hc, if_false, Option.some.injEq] at he
      subst he
      exact ⟨L.length, le_refl _, by simpa using hw, rfl, rfl, not_lt.1 hc⟩

theorem SameDom.refl (h : Heap) : SameDom h h := fun _ => Iff.rfl

theorem SameDom.trans {h1 h2 h3 : Heap} (h12 : SameDom h1 h2) (h23 : SameDom h2 h3) :
    SameDom h1 h3 := fun a => (h23 a).trans (h12 a)

theorem SameDom.update {h : Heap} {a : Nat} {n : lru_node} (hn : h a = some n) (m : lru_node) :
    SameDom h (Function.update h a (some m)) := by
  intro b
  by_cases hb : b = a
  · subst hb; simp [hn]
  · rw [Function.update_noteq hb]

theorem Run.last_next {h : Heap} {pp : Option Nat} {l : List Cell} {e : Option Nat} {c : Cell}
    (hr : Run h pp (l ++ [c]) e) : ∃ n, h c.1 = some n ∧ n.next = e := by
  rw [Run.append_iff] at hr
  obtain ⟨-, ⟨p, hp, -⟩, -⟩ := hr
  exact ⟨_, hp, rfl⟩

theorem nodup_snoc {l : List Cell} {c : Cell} (h : ((l ++ [c]).map fun c => c.1).Nodup) :
    c.1 ∉ (l.map fun c => c.1) := by
  simp only [List.map_append, List.map_cons, List.map_nil, List.nodup_append,
    List.disjoint_singleton] at h
  exact h.2.2

theorem nodup_cons_fst {l : List Cell} {c : Cell} (h : ((c :: l).map fun c => c.1).Nodup) :
    c.1 ∉ (l.map fun c => c.1) := by
  simp only [List.map_cons, List.nodup_cons] at h
  exact h.1

theorem nodup_mid {l1 l2 : List Cell} {c : Cell}
    (h : ((l1 ++ c :: l2).map fun c => c.1).Nodup) :
    c.1 ∉ (l1.map fun c => c.1) ∧ c.1 ∉ (l2.map fun c => c.1) ∧
      ((l1.map fun c => c.1).Nodup) ∧ ((l2.map fun c => c.1).Nodup) ∧
      (∀ a ∈ (l1.map fun c => c.1), a ∉ (l2.map fun c => c.1)) ∧
      ((l1 ++ l2).map fun c => c.1).Nodup := by
  have hs : ((l1 ++ l2).map fun c => c.1).Nodup := by
    refine h.sublist ?_
    exact List.Sublist.map _ (List.Sublist.append_left (List.sublist_cons_self _ _) _)
  rw [List.map_append, List.map_cons, List.nodup_append, List.nodup_cons] at h
  obtain ⟨h1, ⟨h2, h3⟩, h4⟩ := h
  refine ⟨fun hc => h4 hc (List.mem_cons_self _ _), h2, h1, h3,
    fun a ha ha2 => h4 ha (List.mem_cons_of_mem _ ha2), hs⟩

theorem Run.set_last_next2 {h : Heap} {pp : Option Nat} {c : Cell} {l l0 : List Cell}
    {e : Option Nat} {n : lru_node} (e2 : Option Nat) (hl : l = l0 ++ [c])
    (hr : Run h pp l e) (hn : h c.1 = some n) (hnd : (l.map fun c => c.1).Nodup) :
    Run (Function.update h c.1 (some { n with next := e2 })) pp l e2 := by
  subst hl
  exact hr.set_last_next e2 hn (nodup_snoc hnd)

theorem Run.set_first_prev2 {h : Heap} {pp r : Option Nat} {c : Cell} {l l0 : List Cell}
    {e : Option Nat} {n : lru_node} (q2 : Option Nat) (hl : l = c :: l0)
    (hr : Run h pp l e) (hn : h c.1 = some n) (hnd : (l.map fun c => c.1).Nodup)
    (hq : ∀ q, r = some q → q2 = some q) :
    Run (Function.update h c.1 (some { n with prev := q2 })) r l e := by
  subst hl
  exact hr.set_first_prev q2 hn (nodup_cons_fst hnd) hq

theorem node_to_head_last_spec {s : SimpleLRU} {L1 L1a L1t : List Cell}
    {hd dP c : Cell}
    (hcs : L1 = hd :: L1t) (hsn : L1 = L1a ++ [dP])
    (hnd : (L1.map fun c => c.1).Nodup) (hc1 : c.1 ∉ L1.map fun c => c.1)
    (hh : s._lru_head = some hd.1)
    (hA : Run s.heap none L1 (some c.1))
    (hC : s.heap c.1 = some ⟨c.2.1, c.2.2, some dP.1, none⟩) :
    ∃ h3, node_to_head_last s c.1 ⟨c.2.1, c.2.2, some dP.1, none⟩ =
        some { s with _lru_head := some c.1, _lru_tail := some dP.1, heap := h3 } ∧
      Run h3 (some c.1) L1 none ∧
      h3 c.1 = some ⟨c.2.1, c.2.2, some dP.1, some hd.1⟩ ∧ SameDom s.heap h3 := by
  have hhd : hd ∈ L1 := by simp [hcs]
  have hdP : dP ∈ L1 := by simp [hsn]
  have hchd : c.1 ≠ hd.1 := fun h => hc1 (h ▸ List.mem_map_of_mem (fun c : Cell => c.1) hhd)
  have hcdP : c.1 ≠ dP.1 := fun h => hc1 (h ▸ List.mem_map_of_mem (fun c : Cell => c.1) hdP)
  obtain ⟨nh, hnh, -, -⟩ := hA.lookup hhd
  have A1 := hA.set_first_prev2 (r := some c.1) (some c.1) hcs hnh hnd (fun q hq => hq)
  have C1 : Function.update s.heap hd.1 (some { nh with prev := some c.1 }) c.1 = _ :=
    (Function.update_noteq hchd _ _).trans hC
  have D1 := SameDom.update hnh { nh with prev := some c.1 }
  have A2 := A1.update_notin c.1 (some ⟨c.2.1, c.2.2, some dP.1, some hd.1⟩) hc1
  have D2 := D1.trans (SameDom.update C1 ⟨c.2.1, c.2.2, some dP.1, some hd.1⟩)
  obtain ⟨nP, hnP, hnPn⟩ := (hsn ▸ A2).last_next
  have A3 := A2.set_last_next2 none hsn hnP hnd
  have D3 := D2.trans (SameDom.update hnP { nP with next := none })
  refine ⟨_, ?_, A3, ?_, D3⟩
  · simp only [node_to_head_last, hh, Option.some_bind, set_prev, hnh, Option.map_some',
      reset_next, C1, destroy_none, Function.update_same, release_next, hnP, hnPn,
      reset_head]
  · rw [Function.update_noteq hcdP, Function.update_same]

theorem node_to_head_unlink_spec {s : SimpleLRU} {L1 L1a L2 : List Cell}
    {dP c X : Cell}
    (hsn : L1 = L1a ++ [dP])
    (hnd : (L1.map fun c => c.1).Nodup) (hc1 : c.1 ∉ L1.map fun c => c.1)
    (hc2 : c.1 ∉ L2.map fun c => c.1)
    (hdj : ∀ a ∈ (L1.map fun c => c.1), a ∉ (L2.map fun c => c.1))
    (hA : Run s.heap none L1 (some c.1))
    (hB : Run s.heap (some c.1) L2 none)
    (hC : s.heap c.1 = some ⟨c.2.1, c.2.2, some dP.1, some X.1⟩) :
    ∃ h3, node_to_head_unlink s c.1 ⟨c.2.1, c.2.2, some dP.1, some X.1⟩ =
        some { s with _lru_head := some c.1, heap := h3 } ∧
      Run h3 none L1 (some X.1) ∧ Run h3 (some c.1) L2 none ∧
      h3 c.1 = some ⟨c.2.1, c.2.2, some dP.1, none⟩ ∧ SameDom s.heap h3 := by
  have hdP : dP ∈ L1 := by simp [hsn]
  have hdP1 : dP.1 ∈ L1.map fun c => c.1 := List.mem_map_of_mem (fun c : Cell => c.1) hdP
  have hcdP : c.1 ≠ dP.1 := fun h => hc1 (h ▸ hdP1)
  obtain ⟨nP, hnP, hnPn⟩ := (hsn ▸ hA).last_next
  have A1 := hA.set_last_next2 none hsn hnP hnd
  have B1 := hB.update_notin dP.1 (some { nP with next := none }) (hdj _ hdP1)
  have C1 : Function.update s.heap dP.1 (some { nP with next := none }) c.1 = _ :=
    (Function.update_noteq hcdP _ _).trans hC
  have D1 := SameDom.update hnP { nP with next := none }
  have A2 := A1.update_notin c.1 (some ⟨c.2.1, c.2.2, some dP.1, none⟩) hc1
  have B2 := B1.update_notin c.1 (some ⟨c.2.1, c.2.2, some dP.1, none⟩) hc2
  have D2 := D1.trans (SameDom.update C1 ⟨c.2.1, c.2.2, some dP.1, none⟩)
  have P2 : Function.update (Function.update s.heap dP.1 (some { nP with next := none })) c.1
      (some ⟨c.2.1, c.2.2, some dP.1, none⟩) dP.1 = some { nP with next := none } := by
    rw [Function.update_noteq hcdP.symm, Function.update_same]
  have A3 := A2.set_last_next2 (some X.1) hsn P2 hnd
  have B3 := B2.update_notin dP.1 (some { nP with next := some X.1 }) (hdj _ hdP1)
  have D3 := D2.trans (SameDom.update P2 { nP with next := some X.1 })
  refine ⟨_, ?_, A3, B3, ?_, D3⟩
  · simp only [node_to_head_unlink, Option.some_bind, release_next, hnP, Option.map_some',
      reset_head, destroy_none, C1, Function.update_same, reset_next, P2, hnPn]
  · rw [Function.update_noteq hcdP, Function.update_same]

theorem node_to_head_relink_spec {s : SimpleLRU} {L1 L1a L1t L2 L2t : List Cell}
    {hd dP c X : Cell}
    (hcs : L1 = hd :: L1t) (hsn : L1 = L1a ++ [dP]) (hx : L2 = X :: L2t)
    (hnd : (L1.map fun c => c.1).Nodup) (hnd2 : (L2.map fun c => c.1).Nodup)
    (hc1 : c.1 ∉ L1.map fun c => c.1)
    (hc2 : c.1 ∉ L2.map fun c => c.1)
    (hdj : ∀ a ∈ (L1.map fun c => c.1), a ∉ (L2.map fun c => c.1))
    (hA : Run s.heap none L1 (some X.1))
    (hB : Run s.heap (some c.1) L2 none)
    (hC : s.heap c.1 = some ⟨c.2.1, c.2.2, some dP.1, none⟩) :
    ∃ h6, node_to_head_relink s c.1 (some hd.1) = some { s with heap := h6 } ∧
      Run h6 (some c.1) L1 (some X.1) ∧ Run h6 (some dP.1) L2 none ∧
      h6 c.1 = some ⟨c.2.1, c.2.2, some dP.1, some hd.1⟩ ∧ SameDom s.heap h6 := by
  have hhd : hd ∈ L1 := by simp [hcs]
  have hhd1 : hd.1 ∈ L1.map fun c => c.1 := List.mem_map_of_mem (fun c : Cell => c.1) hhd
  have hdP : dP ∈ L1 := by simp [hsn]
  have hdP1 : dP.1 ∈ L1.map fun c => c.1 := List.mem_map_of_mem (fun c : Cell => c.1) hdP
  have hX : X ∈ L2 := by simp [hx]
  have hX1 : X.1 ∈ L2.map fun c => c.1 := List.mem_map_of_mem (fun c : Cell => c.1) hX
  have hchd : c.1 ≠ hd.1 := fun h => hc1 (h ▸ hhd1)
  have hcdP : c.1 ≠ dP.1 := fun h => hc1 (h ▸ hdP1)
  have hcX : c.1 ≠ X.1 := fun h => hc2 (h ▸ hX1)
  have hXL1 : X.1 ∉ L1.map fun c => c.1 := fun h => hdj _ h hX1
  obtain ⟨nh, hnh, -, -⟩ := hA.lookup hhd
  have A4 := hA.set_first_prev2 (r := some c.1) (some c.1) hcs hnh hnd (fun q hq => hq)
  have B4 := hB.update_notin hd.1 (some { nh with prev := some c.1 }) (hdj _ hhd1)
  have C4 : Function.update s.heap hd.1 (some { nh with prev := some c.1 }) c.1 = _ :=
    (Function.update_noteq hchd _ _).trans hC
  have D4 := SameDom.update hnh { nh with prev := some c.1 }
  have A5 := A4.update_notin c.1 (some ⟨c.2.1, c.2.2, some dP.1, some hd.1⟩) hc1
  have B5 := B4.update_notin c.1 (some ⟨c.2.1, c.2.2, some dP.1, some hd.1⟩) hc2
  have D5 := D4.trans (SameDom.update C4 ⟨c.2.1, c.2.2, some dP.1, some hd.1⟩)
  obtain ⟨nP, hnP, hnPn⟩ := (hsn ▸ A5).last_next
  obtain ⟨nX, hnX, -, -⟩ := B5.lookup hX
  have A6 := A5.update_notin X.1 (some { nX with prev := some dP.1 }) hXL1
  have B6 := B5.set_first_prev2 (r := some dP.1) (some dP.1) hx hnX hnd2 (fun q hq => hq)
  have D6 := D5.trans (SameDom.update hnX { nX with prev := some dP.1 })
  refine ⟨_, ?_, A6, B6, ?_, D6⟩
  · simp only [node_to_head_relink, Option.some_bind, set_prev, hnh, Option.map_some',
      reset_next, C4, destroy_none, Function.update_same, hnP, hnPn, hnX]
  · rw [Function.update_noteq hcX, Function.update_same]

theorem List.getLast?_concat' {α : Type} (l : List α) (a : α) :
    (l ++ [a]).getLast? = some a := by simp

theorem WF.of_perm {s s2 : SimpleLRU} {L L2 : List Cell} (hw : WF s L) (hp : L2.Perm L)
    (hhead : s2._lru_head = next_ptr L2 none)
    (htail : ∀ c ∈ L2.getLast?, s2._lru_tail = some c.1)
    (hrun : Run s2.heap none L2 none)
    (hidx : s2._lru_index = s._lru_index) (hdom : SameDom s.heap s2.heap)
    (hbrk : s2.brk = s.brk) : WF s2 L2 := by
  refine ⟨hhead, htail, hrun, ?_, ?_, ?_, ?_, ?_⟩
  · exact ((hp.map _).nodup_iff).2 hw.nodup
  · exact ((hp.map _).nodup_iff).2 hw.keys
  · intro k a
    rw [hidx, hw.index]
    constructor
    · rintro ⟨v, hv⟩; exact ⟨v, hp.mem_iff.2 hv⟩
    · rintro ⟨v, hv⟩; exact ⟨v, hp.mem_iff.1 hv⟩
  · intro a ha
    have : s.heap a ≠ none := fun h => ha ((hdom a).2 h)
    exact ((hp.map _).mem_iff).2 (hw.live a this)
  · intro a ha
    rw [hbrk]
    exact hw.bound a (((hp.map _).mem_iff).1 ha)

theorem node_to_head_wf {s : SimpleLRU} {L1 L2 : List Cell} {c : Cell}
    (hw : WF s (L1 ++ c :: L2)) :
    ∃ s2, s.node_to_head c.1 = some s2 ∧ WF s2 (c :: (L1 ++ L2)) ∧
      s2._cur_size = s._cur_size ∧ s2._max_size = s._max_size ∧ s2.brk = s.brk ∧
      s2._lru_index = s._lru_index := by
  cases hL1 : L1 with
  | nil =>
    subst hL1
    have hh : s._lru_head = some c.1 := by simpa [next_ptr] using hw.head
    exact ⟨s, by simp [node_to_head, hh], by simpa using hw, rfl, rfl, rfl, rfl⟩
  | cons hd L1t =>
    rw [← hL1]
    have hperm : (c :: (L1 ++ L2)).Perm (L1 ++ c :: L2) := List.perm_middle.symm
    obtain ⟨hc1, hc2, hn1, hn2, hdj, -⟩ := nodup_mid hw.nodup
    have hh : s._lru_head = some hd.1 := by
      have := hw.head
      rw [hL1] at this
      simpa [next_ptr] using this
    have hhd1 : hd.1 ∈ L1.map fun c => c.1 := by rw [hL1]; simp
    have hne : ¬ s._lru_head = some c.1 := by
      rw [hh]
      intro h
      have h2 : hd.1 = c.1 := Option.some.inj h
      exact hc1 (h2 ▸ hhd1)
    obtain ⟨L1a, dP, hsn⟩ : ∃ L1a dP, L1 = L1a ++ [dP] := by
      rcases list_snoc_cases L1 with h | h
      · rw [hL1] at h; cases h
      · exact h
    have hrun := hw.run
    rw [Run.append_iff] at hrun
    obtain ⟨hA, ⟨p, hC, hq⟩, hB⟩ := hrun
    have hp : p = some dP.1 := hq dP.1 (by rw [hsn]; simp [last_ptr])
    subst hp
    simp only [next_ptr] at hA
    cases hL2 : L2 with
    | nil =>
      subst hL2
      simp only [next_ptr] at hC
      obtain ⟨h3, e3, A3, C3, D3⟩ := node_to_head_last_spec hL1 hsn hn1 hc1 hh hA hC
      have e : s.node_to_head c.1 =
          some { s with _lru_head := some c.1, _lru_tail := some dP.1, heap := h3 } := by
        simp only [node_to_head, hne, if_false, hC, Option.some_bind]
        exact e3
      refine ⟨_, e, ?_, rfl, rfl, rfl, rfl⟩
      · refine hw.of_perm hperm rfl ?_ ?_ rfl D3 rfl
        · intro d hd
          have h1 : c :: (L1 ++ []) = (c :: L1a) ++ [dP] := by rw [hsn]; simp
          rw [h1, Option.mem_def, List.getLast?_concat'] at hd
          cases hd
          rfl
        · refine ⟨⟨some dP.1, ?_, fun q hq => by cases hq⟩, by simpa using A3⟩
          show h3 c.1 = _
          rw [C3, hL1]
          simp [next_ptr]
    | cons X L2t =>
      rw [← hL2]
      have hCx : s.heap c.1 = some ⟨c.2.1, c.2.2, some dP.1, some X.1⟩ := by
        rw [hC, hL2]; simp [next_ptr]
      obtain ⟨h3, e3, A3, B3, C3, D3⟩ :=
        node_to_head_unlink_spec hsn hn1 hc1 hc2 hdj hA hB hCx
      obtain ⟨h6, e6, A6, B6, C6, D6⟩ :=
        node_to_head_relink_spec (s := { s with _lru_head := some c.1, heap := h3 })
          hL1 hsn hL2 hn1 hn2 hc1 hc2 hdj A3 B3 C3
      have e : s.node_to_head c.1 = some { s with _lru_head := some c.1, heap := h6 } := by
        rw [node_to_head, if_neg hne]
        simp only [hCx, Option.some_bind, node_to_head_mid, e3, hh]
        exact e6
      refine ⟨_, e, ?_, rfl, rfl, rfl, rfl⟩
      · refine hw.of_perm hperm rfl ?_ ?_ rfl (D3.trans D6) rfl
        · intro d hd
          apply hw.tail
          have h1 : (c :: (L1 ++ L2)).getLast? = L2.getLast? := by
            rw [← List.cons_append, List.getLast?_append_of_ne_nil _ (by rw [hL2]; simp)]
          have h2 : (L1 ++ c :: L2).getLast? = L2.getLast? := by
            rw [List.getLast?_append_of_ne_nil _ (by simp), hL2, List.getLast?_cons_cons]
          rw [Option.mem_def, h2, ← h1]
          exact hd
        · refine ⟨⟨some dP.1, ?_, fun q hq => by cases hq⟩, ?_⟩
          · show h6 c.1 = _
            rw [C6, hL1]
            simp [next_ptr]
          · rw [Run.append_iff]
            refine ⟨by rw [hL2]; exact A6, ?_⟩
            have : last_ptr L1 (some c.1) = some dP.1 := by rw [hsn]; simp [last_ptr]
            rw [this]
            exact B6

theorem WF.index_of_mem {s : SimpleLRU} {L : List Cell} (hw : WF s L) {c : Cell} (hc : c ∈ L) :
    s._lru_index c.2.1 = some c.1 :=
  (hw.index c.2.1 c.1).2 ⟨c.2.2, hc⟩

theorem Delete_wf {s : SimpleLRU} {L1 L2 : List Cell} {c : Cell}
    (hw : WF s (L1 ++ c :: L2)) :
    ∃ s2, s.Delete c.2.1 = some (true, s2) ∧ WF s2 (L1 ++ L2) ∧
      s2._cur_size = size_sub s._cur_size (c.2.1.length + c.2.2.length) ∧
      s2._max_size = s._max_size ∧ s2.brk = s.brk ∧
      (L1 ++ L2 = [] → s2._lru_tail = none) := by
  have hi := hw.index_of_mem (c := c) (by simp)
  obtain ⟨f, hf⟩ := hw.brk_pos (c := c) (by simp)
  obtain ⟨hc1, hc2, hn1, hn2, hdj, hn12⟩ := nodup_mid hw.nodup
  have hm := mem_remove_iff hw.keys
  have hidx2 := fun k a => index_remove (c := c) hw.index hm k a
  have hkeys2 : ((L1 ++ L2).map fun c => c.2.1).Nodup := by
    refine hw.keys.sublist ?_
    exact List.Sublist.map _ (List.Sublist.append_left (List.sublist_cons_self _ _) _)
  have hbound2 : ∀ a ∈ (L1 ++ L2).map (fun c => c.1), a < s.brk := by
    intro a ha
    apply hw.bound
    simp only [List.map_append, List.mem_append, List.map_cons, List.mem_cons] at ha ⊢
    tauto
  have hlive2 : ∀ hX : Heap, SameDom s.heap hX →
      ∀ a, Function.update hX c.1 none a ≠ none → a ∈ (L1 ++ L2).map fun c => c.1 := by
    intro hX hD a ha
    by_cases hac : a = c.1
    · subst hac; simp at ha
    · rw [Function.update_noteq hac] at ha
      have := hw.live a (fun h => ha ((hD a).2 h))
      simp only [List.map_append, List.mem_append, List.map_cons, List.mem_cons] at this ⊢
      tauto
  have hrun := hw.run
  rw [Run.append_iff] at hrun
  obtain ⟨hA, ⟨p, hC, hq⟩, hB⟩ := hrun
  simp only [next_ptr] at hA
  have hbound3 : ∀ a ∈ (L1 ++ L2).map (fun c => c.1), a < f + 1 := hf ▸ hbound2
  rcases list_snoc_cases L1 with rfl | ⟨L1a, dP, hsn⟩
  · have hh : s._lru_head = some c.1 := by simpa [next_ptr] using hw.head
    cases hL2 : L2 with
    | nil =>
      subst hL2
      simp only [next_ptr] at hC
      simp [Delete, hi, hC, hh, reset_head, hf, destroy_leaf f _ _ _ hC rfl]
      exact ⟨rfl, by simp, trivial, by simp, by simp, by simpa using hidx2,
        by simpa using hlive2 _ (SameDom.refl _), by simp⟩
    | cons X L2t =>
      rw [← hL2]
      have hX : X ∈ L2 := by simp [hL2]
      have hX1 : X.1 ∈ L2.map fun c => c.1 := List.mem_map_of_mem (fun c : Cell => c.1) hX
      have hcX : c.1 ≠ X.1 := fun h => hc2 (h ▸ hX1)
      have hCx : s.heap c.1 = some ⟨c.2.1, c.2.2, p, some X.1⟩ := by
        rw [hC, hL2]; simp [next_ptr]
      obtain ⟨nX, hnX, -, -⟩ := hB.lookup hX
      have B1 := hB.set_first_prev2 (r := none) none hL2 hnX hn2 (fun q hq => by cases hq)
      have C1 : Function.update s.heap X.1 (some { nX with prev := none }) c.1 = _ :=
        (Function.update_noteq hcX _ _).trans hCx
      have D1 := SameDom.update hnX { nX with prev := none }
      have B2 := B1.update_notin c.1 (some ⟨c.2.1, c.2.2, p, none⟩) hc2
      have D2 := D1.trans (SameDom.update C1 ⟨c.2.1, c.2.2, p, none⟩)
      have B3 := B2.update_notin c.1 none hc2
      have hleaf := destroy_leaf f (Function.update
        (Function.update s.heap X.1 (some { nX with prev := none })) c.1
        (some ⟨c.2.1, c.2.2, p, none⟩)) c.1 _ (Function.update_same _ _ _) rfl
      simp [Delete, hi, hCx, hh, reset_head, hf, set_prev, hnX, release_next, C1, hleaf]
      refine ⟨⟨?_, ?_, ?_, hn12, hkeys2, by simpa using hidx2, ?_, hbound3⟩,
        fun h => by simp [hL2] at h⟩
      · rw [hL2]; simp [next_ptr]
      · intro d hd
        apply hw.tail
        simpa [hL2] using hd
      · simpa using B3
      · have := hlive2 _ D2
        simpa using this
  · have hdP : dP ∈ L1 := by simp [hsn]
    have hdP1 : dP.1 ∈ L1.map fun c => c.1 := List.mem_map_of_mem (fun c : Cell => c.1) hdP
    have hcdP : c.1 ≠ dP.1 := fun h => hc1 (h ▸ hdP1)
    have hp : p = some dP.1 := hq dP.1 (by rw [hsn]; simp [last_ptr])
    subst hp
    have hne : ¬ s._lru_head = some c.1 := by
      rw [hw.head]
      intro h
      apply hc1
      cases L1 with
      | nil => simp at hsn
      | cons hd L1t =>
        have h2 : hd.1 = c.1 := by simpa [next_ptr] using h
        simp [← h2]
    obtain ⟨nP, hnP, hnPn⟩ := (hsn ▸ hA).last_next
    cases hL2 : L2 with
    | nil =>
      subst hL2
      simp only [next_ptr] at hC
      have A1 := hA.set_last_next2 none hsn hnP hn1
      have C1 : Function.update s.heap dP.1 (some { nP with next := none }) c.1 = _ :=
        (Function.update_noteq hcdP _ _).trans hC
      have D1 := SameDom.update hnP { nP with next := none }
      have A2 := A1.update_notin c.1 none hc1
      have hleaf := destroy_leaf f _ c.1 _ C1 rfl
      simp [Delete, hi, hC, hne, reset_next, hf, hnP, hnPn, hleaf]
      refine ⟨⟨?_, ?_, ?_, by simpa using hn12, by simpa using hkeys2, by simpa using hidx2,
        ?_, by simpa using hbound3⟩, fun h => by simp [h] at hsn⟩
      · rw [hw.head]; cases L1 <;> simp [next_ptr] at hsn ⊢
      · rw [hsn]; simp
      · exact A2
      · simpa using hlive2 _ D1
    | cons X L2t =>
      rw [← hL2]
      have hX : X ∈ L2 := by simp [hL2]
      have hX1 : X.1 ∈ L2.map fun c => c.1 := List.mem_map_of_mem (fun c : Cell => c.1) hX
      have hcX : c.1 ≠ X.1 := fun h => hc2 (h ▸ hX1)
      have hXL1 : X.1 ∉ L1.map fun c => c.1 := fun h => hdj _ h hX1
      have hXdP : dP.1 ≠ X.1 := fun h => hXL1 (h ▸ hdP1)
      have hCx : s.heap c.1 = some ⟨c.2.1, c.2.2, some dP.1, some X.1⟩ := by
        rw [hC, hL2]; simp [next_ptr]
      obtain ⟨nX, hnX, -, -⟩ := hB.lookup hX
      -- node->next.get()->prev = node->prev;
      have A1 := hA.update_notin X.1 (some { nX with prev := some dP.1 }) hXL1
      have B1 := hB.set_first_prev2 (r := some dP.1) (some dP.1) hL2 hnX hn2 (fun q hq => hq)
      have C1 : Function.update s.heap X.1 (some { nX with prev := some dP.1 }) c.1 = _ :=
        (Function.update_noteq hcX _ _).trans hCx
      have D1 := SameDom.update hnX { nX with prev := some dP.1 }
      -- node->prev->next = std::move(node->next);
      have A2 := A1.update_notin c.1 (some ⟨c.2.1, c.2.2, some dP.1, none⟩) hc1
      have B2 := B1.update_notin c.1 (some ⟨c.2.1, c.2.2, some dP.1, none⟩) hc2
      have D2 := D1.trans (SameDom.update C1 ⟨c.2.1, c.2.2, some dP.1, none⟩)
      have P2 : Function.update (Function.update s.heap X.1 (some { nX with prev := some dP.1 }))
          c.1 (some ⟨c.2.1, c.2.2, some dP.1, none⟩) dP.1 = some nP := by
        rw [Function.update_noteq hcdP.symm, Function.update_noteq hXdP, hnP]
      have A3 := A2.set_last_next2 (some X.1) hsn P2 hn1
      have B3 := B2.update_notin dP.1 (some { nP with next := some X.1 }) (hdj _ hdP1)
      have D3 := D2.trans (SameDom.update P2 { nP with next := some X.1 })
      have C3 : Function.update (Function.update (Function.update s.heap X.1
          (some { nX with prev := some dP.1 })) c.1 (some ⟨c.2.1, c.2.2, some dP.1, none⟩)) dP.1
          (some { nP with next := some X.1 }) c.1 = some ⟨c.2.1, c.2.2, some dP.1, none⟩ := by
        rw [Function.update_noteq hcdP, Function.update_same]
      have hleaf := destroy_leaf f _ c.1 _ C3 rfl
      have A4 := A3.update_notin c.1 none hc1
      have B4 := B3.update_notin c.1 none hc2
      simp [Delete, hi, hCx, hne, reset_next, hf, set_prev, hnX, release_next, C1, P2, hnPn, hleaf]
      refine ⟨⟨?_, ?_, ?_, hn12, hkeys2, by simpa using hidx2, ?_, hbound3⟩,
        fun h => by simp [h] at hsn⟩
      · rw [hw.head]; cases L1 <;> simp [next_ptr] at hsn ⊢
      · intro d hd
        apply hw.tail
        rw [hL2] at hd ⊢
        simpa [List.getLast?_append_of_ne_nil] using hd
      · rw [Run.append_iff]
        refine ⟨by rw [hL2]; simpa [next_ptr] using A4, ?_⟩
        have : last_ptr L1 none = some dP.1 := by rw [hsn]; simp [last_ptr]
        rw [this]
        simpa using B4
      · simpa using hlive2 _ D3

theorem SetImpl_wf {s s2 : SimpleLRU} {L1 L2 : List Cell} {c : Cell} {v : String}
    (hw : WF s (L1 ++ c :: L2)) (he : s.SetImpl c.1 v = some s2) :
    ∃ m, WF s2 ((c.1, c.2.1, v) :: (L1 ++ L2).take m) ∧ s2._max_size = s._max_size ∧
      s2.brk = s.brk := by
  obtain ⟨ca, ck, cv⟩ := c
  obtain ⟨n, hn, -, -⟩ := hw.run.lookup (c := (ca, ck, cv)) (by simp)
  obtain ⟨s1, h1, hw1, -, hm1, hb1, -⟩ := node_to_head_wf hw
  simp only [SetImpl, hn, h1, Option.bind_eq_bind, Option.some_bind] at he
  cases h2 : evict_loop (to_size_t (to_int (size_sub v.length n.value.length))) (s1.brk + 1) s1 with
  | none => simp [h2] at he
  | some s3 =>
    obtain ⟨m, -, hw3, hm3, hb3, -⟩ := evict_loop_wf _ _ hw1 h2
    rw [h2, Option.some_bind] at he
    cases h3 : s3.heap ca with
    | none => simp [h3] at he
    | some n3 =>
      rw [h3, Option.some_bind] at he
      cases he
      cases m with
      | zero =>
        have := hw3.live ca (by simp [h3])
        simp at this
      | succ m =>
        rw [List.take_succ_cons] at hw3
        refine ⟨m, ⟨hw3.head, ?_, ?_, hw3.nodup, hw3.keys, ?_, ?_, hw3.bound⟩,
          hm3.trans hm1, hb3.trans hb1⟩
        · intro d hd
          have := hw3.tail
          cases hl : List.take m (L1 ++ L2) with
          | nil =>
            rw [hl] at this hd
            simp at hd
            subst hd
            simpa using this
          | cons x l =>
            rw [hl] at this hd
            rw [List.getLast?_cons_cons] at this hd
            exact this d hd
        · exact hw3.run.set_first_value v h3 (nodup_cons_fst hw3.nodup)
        · intro k a
          show s3._lru_index k = some a ↔ _
          rw [hw3.index]
          simp only [List.mem_cons, Prod.mk.injEq]
          constructor
          · rintro ⟨v2, ⟨e1, e2, -⟩ | h⟩
            · exact ⟨v, Or.inl ⟨e1, e2, rfl⟩⟩
            · exact ⟨v2, Or.inr h⟩
          · rintro ⟨v2, ⟨e1, e2, -⟩ | h⟩
            · exact ⟨cv, Or.inl ⟨e1, e2, rfl⟩⟩
            · exact ⟨v2, Or.inr h⟩
        · intro a ha
          have hd := SameDom.update h3 { n3 with value := v }
          exact hw3.live a (fun h => ha ((hd a).2 h))

theorem length_le_of_bound {l : List Nat} {n : Nat} (hn : l.Nodup) (hb : ∀ a ∈ l, a < n) :
    l.length ≤ n := by
  have h : l.Subperm (List.range n) :=
    List.subperm_of_subset hn (fun a ha => List.mem_range.2 (hb a ha))
  simpa using h.length_le

theorem walk_run {h : Heap} {pp : Option Nat} {l : List Cell} (hr : Run h pp l none)
    (fuel : Nat) (hf : l.length ≤ fuel) : walk h fuel (next_ptr l none) = l.map fun c => c.1 := by
  induction l generalizing pp fuel with
  | nil => cases fuel <;> simp [walk, next_ptr]
  | cons c l ih =>
    obtain ⟨⟨p, hp, -⟩, hr2⟩ := hr
    cases fuel with
    | zero => simp at hf
    | succ fuel =>
      show walk h (fuel + 1) (some c.1) = _
      simp only [walk, hp, List.map_cons]
      rw [ih hr2 fuel (by simpa using hf)]

theorem WF.chain_eq {s : SimpleLRU} {L : List Cell} (hw : WF s L) :
    s.chain = L.map fun c => c.1 := by
  unfold chain
  rw [hw.head]
  apply walk_run hw.run
  have := length_le_of_bound hw.nodup hw.bound
  simpa using this

theorem filterMap_run {h : Heap} {pp : Option Nat} {l : List Cell} {e : Option Nat}
    (hr : Run h pp l e) :
    ((l.map fun c => c.1).filterMap h).map (fun n => (n.key, n.value)) =
      l.map fun c => (c.2.1, c.2.2) := by
  induction l generalizing pp with
  | nil => rfl
  | cons c l ih =>
    obtain ⟨⟨p, hp, -⟩, hr2⟩ := hr
    simp only [List.map_cons, List.filterMap_cons, hp]
    rw [ih hr2]

theorem WF.entries_eq {s : SimpleLRU} {L : List Cell} (hw : WF s L) :
    s.entries = L.map fun c => (c.2.1, c.2.2) := by
  unfold entries nodes
  rw [hw.chain_eq]
  exact filterMap_run hw.run

theorem WF.split_of_index {s : SimpleLRU} {L : List Cell} (hw : WF s L) {k : String} {a : Nat}
    (hi : s._lru_index k = some a) : ∃ L1 v L2, L = L1 ++ (a, k, v) :: L2 := by
  obtain ⟨v, hv⟩ := (hw.index k a).1 hi
  obtain ⟨L1, L2, h⟩ := List.append_of_mem hv
  exact ⟨L1, v, L2, h⟩

theorem WF.index_none {s : SimpleLRU} {L : List Cell} (hw : WF s L) {k : String}
    (hi : s._lru_index k = none) : k ∉ L.map fun c => c.2.1 := by
  intro h
  obtain ⟨c, hc, rfl⟩ := List.mem_map.1 h
  rw [hw.index_of_mem hc] at hi
  cases hi

theorem init_wf (C : Nat) : WF (init C) [] :=
  ⟨rfl, by simp, trivial, by simp, by simp, by simp [init], by simp [init], by simp⟩

theorem PutImpl_wf2 {s s2 : SimpleLRU} {L : List Cell} {k v : String} {es : Nat}
    (hw : WF s L) (hk : k ∉ L.map fun c => c.2.1) (he : s.PutImpl k v es = some s2) :
    ∃ m a, WF s2 ((a, k, v) :: L.take m) ∧ s2._max_size = s._max_size := by
  cases h1 : evict_loop es (s.brk + 1) s with
  | none => simp [PutImpl, h1] at he
  | some s1 =>
    obtain ⟨m, -, hw1, hm1, -, -⟩ := evict_loop_wf _ _ hw h1
    have hk1 : k ∉ (L.take m).map fun c => c.2.1 :=
      fun h => hk ((List.Sublist.map _ (List.take_sublist m L)).subset h)
    obtain ⟨s3, h3, hw3, -, hm3⟩ := PutImpl_wf (v := v) h1 hw1 hk1
    rw [h3] at he
    cases he
    exact ⟨m, _, hw3, hm3.trans hm1⟩

theorem Put_wf {s s2 : SimpleLRU} {L : List Cell} {k v : String} {b : Bool}
    (hw : WF s L) (ht : L = [] → s._lru_tail = none) (he : s.Put k v = some (b, s2)) :
    ∃ L2, WF s2 L2 ∧ s2._max_size = s._max_size ∧
      (b = true → ∃ a rest, L2 = (a, k, v) :: rest) ∧ (L2 = [] → s2._lru_tail = none) := by
  unfold Put at he
  by_cases hc : k.length + v.length > s._max_size
  · simp only [hc, if_true, Option.some.injEq, Prod.mk.injEq] at he
    obtain ⟨rfl, rfl⟩ := he
    exact ⟨L, hw, rfl, fun h => (by cases h), ht⟩
  · simp only [hc, if_false] at he
    cases hi : s._lru_index k with
    | none =>
      simp only [hi, Option.map_eq_some', Prod.mk.injEq] at he
      obtain ⟨s3, h3, -, rfl⟩ := he
      obtain ⟨m, a, hw3, hm3⟩ := PutImpl_wf2 hw (hw.index_none hi) h3
      exact ⟨_, hw3, hm3, fun _ => ⟨_, _, rfl⟩, fun h => (by cases h)⟩
    | some a =>
      simp only [hi, Option.map_eq_some', Prod.mk.injEq] at he
      obtain ⟨s3, h3, -, rfl⟩ := he
      obtain ⟨L1, w, L2, rfl⟩ := hw.split_of_index hi
      obtain ⟨m, hw3, hm3, -⟩ := SetImpl_wf (c := (a, k, w)) hw h3
      exact ⟨_, hw3, hm3, fun _ => ⟨_, _, rfl⟩, fun h => (by cases h)⟩

theorem PutIfAbsent_wf {s s2 : SimpleLRU} {L : List Cell} {k v : String} {b : Bool}
    (hw : WF s L) (ht : L = [] → s._lru_tail = none)
    (he : s.PutIfAbsent k v = some (b, s2)) :
    ∃ L2, WF s2 L2 ∧ s2._max_size = s._max_size ∧ (L2 = [] → s2._lru_tail = none) := by
  unfold PutIfAbsent at he
  by_cases hc : k.length + v.length > s._max_size
  · simp only [hc, if_true, Option.some.injEq, Prod.mk.injEq] at he
    obtain ⟨rfl, rfl⟩ := he
    exact ⟨L, hw, rfl, ht⟩
  · simp only [hc, if_false] at he
    cases hi : s._lru_index k with
    | none =>
      simp only [hi, Option.map_eq_some', Prod.mk.injEq] at he
      obtain ⟨s3, h3, -, rfl⟩ := he
      obtain ⟨m, a, hw3, hm3⟩ := PutImpl_wf2 hw (hw.index_none hi) h3
      exact ⟨_, hw3, hm3, fun h => (by cases h)⟩
    | some a =>
      simp only [hi, Option.some.injEq, Prod.mk.injEq] at he
      obtain ⟨rfl, rfl⟩ := he
      exact ⟨L, hw, rfl, ht⟩

theorem Set_wf {s s2 : SimpleLRU} {L : List Cell} {k v : String} {b : Option Bool}
    (hw : WF s L) (ht : L = [] → s._lru_tail = none) (he : s.Set k v = some (b, s2)) :
    ∃ L2, WF s2 L2 ∧ s2._max_size = s._max_size ∧ (L2 = [] → s2._lru_tail = none) := by
  unfold SimpleLRU.Set at he
  by_cases hc : k.length + v.length > s._max_size
  · simp only [hc, if_true, Option.some.injEq, Prod.mk.injEq] at he
    obtain ⟨rfl, rfl⟩ := he
    exact ⟨L, hw, rfl, ht⟩
  · simp only [hc, if_false] at he
    cases hi : s._lru_index k with
    | none =>
      simp only [hi, Option.some.injEq, Prod.mk.injEq] at he
      obtain ⟨rfl, rfl⟩ := he
      exact ⟨L, hw, rfl, ht⟩
    | some a =>
      simp only [hi, Option.map_eq_some', Prod.mk.injEq] at he
      obtain ⟨s3, h3, -, rfl⟩ := he
      obtain ⟨L1, w, L2, rfl⟩ := hw.split_of_index hi
      obtain ⟨m, hw3, hm3, -⟩ := SetImpl_wf (c := (a, k, w)) hw h3
      exact ⟨_, hw3, hm3, fun h => (by cases h)⟩

theorem Delete_wf2 {s s2 : SimpleLRU} {L : List Cell} {k : String} {b : Bool}
    (hw : WF s L) (ht : L = [] → s._lru_tail = none) (he : s.Delete k = some (b, s2)) :
    ∃ L2, WF s2 L2 ∧ s2._max_size = s._max_size ∧ (L2 = [] → s2._lru_tail = none) := by
  cases hi : s._lru_index k with
  | none =>
    simp only [Delete, hi, Option.some.injEq, Prod.mk.injEq] at he
    obtain ⟨rfl, rfl⟩ := he
    exact ⟨L, hw, rfl, ht⟩
  | some a =>
    obtain ⟨L1, w, L2, rfl⟩ := hw.split_of_index hi
    obtain ⟨s3, h3, hw3, -, hm3, -, ht3⟩ := Delete_wf (c := (a, k, w)) hw
    rw [show s.Delete k = some (true, s3) from h3] at he
    cases he
    exact ⟨_, hw3, hm3, ht3⟩

theorem Get_wf {s : SimpleLRU} {L1 L2 : List Cell} {c : Cell} (hw : WF s (L1 ++ c :: L2))
    (out : String) :
    ∃ s2, s.Get c.2.1 out = some (true, c.2.2, s2) ∧ WF s2 (c :: (L1 ++ L2)) ∧
      s2._cur_size = s._cur_size ∧ s2._max_size = s._max_size ∧
      s2._lru_index = s._lru_index ∧ (L1 = [] → s2 = s) := by
  have hi := hw.index_of_mem (c := c) (by simp)
  obtain ⟨n, hn, -, hv⟩ := hw.run.lookup (c := c) (by simp)
  obtain ⟨s1, h1, hw1, hc1, hm1, -, hi1⟩ := node_to_head_wf hw
  refine ⟨s1, ?_, hw1, hc1, hm1, hi1, ?_⟩
  · simp [Get, hi, hn, h1, hv]
  · rintro rfl
    have hh : s._lru_head = some c.1 := by simpa [next_ptr] using hw.head
    simp only [node_to_head, hh, if_true, Option.some.injEq] at h1
    exact h1.symm

theorem Get_wf2 {s s2 : SimpleLRU} {L : List Cell} {k out out2 : String} {b : Bool}
    (hw : WF s L) (ht : L = [] → s._lru_tail = none)
    (he : s.Get k out = some (b, out2, s2)) :
    ∃ L2, WF s2 L2 ∧ s2._max_size = s._max_size ∧ (L2 = [] → s2._lru_tail = none) := by
  cases hi : s._lru_index k with
  | none =>
    simp only [Get, hi, Option.some.injEq, Prod.mk.injEq] at he
    obtain ⟨-, -, rfl⟩ := he
    exact ⟨L, hw, rfl, ht⟩
  | some a =>
    obtain ⟨L1, w, L2, rfl⟩ := hw.split_of_index hi
    obtain ⟨s3, h3, hw3, -, hm3, -⟩ := Get_wf (c := (a, k, w)) hw out
    rw [show s.Get k out = some (true, w, s3) from h3] at he
    cases he
    exact ⟨_, hw3, hm3, fun h => (by cases h)⟩

theorem step_wf {s s2 : SimpleLRU} {L : List Cell} {c : Call}
    (hw : WF s L) (ht : L = [] → s._lru_tail = none) (he : step s c = some s2) :
    ∃ L2, WF s2 L2 ∧ s2._max_size = s._max_size ∧ (L2 = [] → s2._lru_tail = none) := by
  cases c with
  | Put k v =>
    simp only [step, Option.map_eq_some'] at he
    obtain ⟨⟨b, s3⟩, h, rfl⟩ := he
    obtain ⟨L2, h1, h2, -, h3⟩ := Put_wf hw ht h
    exact ⟨L2, h1, h2, h3⟩
  | PutIfAbsent k v =>
    simp only [step, Option.map_eq_some'] at he
    obtain ⟨⟨b, s3⟩, h, rfl⟩ := he
    exact PutIfAbsent_wf hw ht h
  | Set k v =>
    simp only [step, Option.map_eq_some'] at he
    obtain ⟨⟨b, s3⟩, h, rfl⟩ := he
    exact Set_wf hw ht h
  | Delete k =>
    simp only [step, Option.map_eq_some'] at he
    obtain ⟨⟨b, s3⟩, h, rfl⟩ := he
    exact Delete_wf2 hw ht h
  | Get k v =>
    simp only [step, Option.map_eq_some'] at he
    obtain ⟨⟨b, o, s3⟩, h, rfl⟩ := he
    exact Get_wf2 hw ht h

theorem run_wf {s s2 : SimpleLRU} {L : List Cell} {cs : List Call}
    (hw : WF s L) (ht : L = [] → s._lru_tail = none) (he : run s cs = some s2) :
    ∃ L2, WF s2 L2 ∧ s2._max_size = s._max_size ∧ (L2 = [] → s2._lru_tail = none) := by
  induction cs generalizing s L with
  | nil =>
    simp only [run, Option.some.injEq] at he
    subst he
    exact ⟨L, hw, rfl, ht⟩
  | cons c cs ih =>
    simp only [run, Option.bind_eq_some] at he
    obtain ⟨s1, h1, h2⟩ := he
    obtain ⟨L1, hw1, hm1, ht1⟩ := step_wf hw ht h1
    obtain ⟨L2, hw2, hm2, ht2⟩ := ih hw1 ht1 h2
    exact ⟨L2, hw2, hm2.trans hm1, ht2⟩

theorem Reachable.wf {C : Nat} {s : SimpleLRU} (hr : Reachable C s) :
    ∃ L, WF s L ∧ s._max_size = C ∧ (L = [] → s._lru_tail = none) := by
  obtain ⟨cs, h⟩ := hr
  exact run_wf (init_wf C) (fun _ => rfl) h

theorem big_value_length : big_value.length = 4294967296 := by
  unfold big_value
  rw [String.length, List.length_replicate]
  norm_num

theorem init_put (C : Nat) (k v : String) (h : k.length + v.length ≤ C)
    (h2 : C < 2 ^ 64) :
    (init C).Put k v = some (true, single C (k.length + v.length) k v) := by
  have h3 : (k.length + v.length) % 18446744073709551616 = k.length + v.length :=
    Nat.mod_eq_of_lt (by omega)
  simp [Put, init, PutImpl, evict_loop, size_add, insert_node, reset_next,
    reset_head, destroy, single, not_lt.2 h, h3]

theorem single_put (C cur : Nat) (k w v : String) (h : k.length + v.length ≤ C)
    (hc : size_add cur (to_size_t (to_int (size_sub v.length w.length))) ≤ C) :
    (single C cur k w).Put k v =
      some (true, single C (size_add cur (to_size_t (to_int (size_sub v.length w.length)))) k v) := by
  simp [Put, single, SetImpl, node_to_head, evict_loop, not_lt.2 h, not_lt.2 hc]

theorem single_entries (C cur : Nat) (k v : String) : (single C cur k v).entries = [(k, v)] := by
  simp [entries, nodes, chain, walk, single]

theorem delta_up (v : String) (hv : v.length = 4294967296) :
    to_size_t (to_int (size_sub v.length "".length)) = 0 := by
  rw [hv]
  decide

theorem delta_down (v : String) (hv : v.length = 4294967296) :
    to_size_t (to_int (size_sub "".length v.length)) = 0 := by
  rw [hv]
  decide

theorem C1_drift_gen (v : String) (hv : v.length = 4294967296) :
    ∃ s, run (init 4294967297) [Call.Put "k" "", Call.Put "k" v] = some s ∧
      s._cur_size = 1 ∧ s.total_size = 4294967297 := by
  have hk : "k".length = 1 := by decide
  have he : "".length = 0 := by decide
  have e1 := init_put 4294967297 "k" "" (by rw [hk, he]; norm_num) (by norm_num)
  have e2 := single_put 4294967297 1 "k" "" v (by rw [hv, hk])
    (by rw [delta_up v hv]; norm_num [size_add])
  rw [delta_up v hv] at e2
  rw [hk, he] at e1
  have e3 : size_add 1 0 = 1 := by norm_num [size_add]
  rw [e3] at e2
  refine ⟨single 4294967297 1 "k" v, ?_, rfl, ?_⟩
  · simp only [run, step, e1, Option.map_some', Option.some_bind, e2]
  · simp [total_size, single_entries, entry_size, hv, hk]

theorem reachable_after (C : Nat) (cs : List Call) (h : ((init C).run cs).isSome = true) :
    Reachable C (after C cs) := by
  refine ⟨cs, ?_⟩
  unfold after
  cases hr : (init C).run cs with
  | none => rw [hr] at h; cases h
  | some s => rfl

theorem filter_key {L1 L2 : List Cell} {c : Cell}
    (hk : ((L1 ++ c :: L2).map fun c => c.2.1).Nodup) :
    ((L1 ++ c :: L2).map fun d => (d.2.1, d.2.2)).filter (fun e => decide (e.1 ≠ c.2.1)) =
      (L1 ++ L2).map fun d => (d.2.1, d.2.2) := by
  have hm := mem_remove_iff hk
  have h1 : ∀ x ∈ L1, x.2.1 ≠ c.2.1 := fun x hx => ((hm x).1 (List.mem_append_left _ hx)).2
  have h2 : ∀ x ∈ L2, x.2.1 ≠ c.2.1 := fun x hx => ((hm x).1 (List.mem_append_right _ hx)).2
  rw [List.map_append, List.map_cons, List.filter_append, List.filter_cons, List.map_append]
  simp only [ne_eq, not_true_eq_false, decide_False, Bool.false_eq_true, if_false]
  congr 1
  · rw [List.filter_eq_self]
    intro e he
    obtain ⟨x, hx, rfl⟩ := List.mem_map.1 he
    simpa using h1 x hx
  · rw [List.filter_eq_self]
    intro e he
    obtain ⟨x, hx, rfl⟩ := List.mem_map.1 he
    simpa using h2 x hx

/-- C2. Bijection invariant: in every reachable state the index holds exactly
the keys of the recency chain, no key (and no node) occurs twice in the chain,
and every index entry refers to the chain node carrying that key. -/
theorem bijection_invariant (C : Nat) (s : SimpleLRU) (hr : Reachable C s) :
    (∀ k, (s._lru_index k).isSome ↔ k ∈ s.entries.map Prod.fst) ∧
      (s.entries.map Prod.fst).Nodup ∧ s.chain.Nodup ∧
      ∀ k a, s._lru_index k = some a → a ∈ s.chain ∧ ∃ n, s.heap a = some n ∧ n.key = k := by
  obtain ⟨L, hw, -, -⟩ := Reachable.wf hr
  have hkm : s.entries.map Prod.fst = L.map fun c => c.2.1 := by
    rw [hw.entries_eq, List.map_map]; rfl
  refine ⟨?_, ?_, ?_, ?_⟩
  · intro k
    rw [hkm]
    constructor
    · intro h
      obtain ⟨a, ha⟩ := Option.isSome_iff_exists.1 h
      obtain ⟨v, hv⟩ := (hw.index k a).1 ha
      exact List.mem_map.2 ⟨_, hv, rfl⟩
    · intro h
      obtain ⟨c, hc, rfl⟩ := List.mem_map.1 h
      rw [hw.index_of_mem hc]; rfl
  · rw [hkm]; exact hw.keys
  · rw [hw.chain_eq]; exact hw.nodup
  · intro k a h
    obtain ⟨v, hv⟩ := (hw.index k a).1 h
    obtain ⟨n, hn, hkey, -⟩ := hw.run.lookup hv
    rw [hw.chain_eq]
    exact ⟨List.mem_map.2 ⟨_, hv, rfl⟩, n, hn, hkey⟩

theorem bijection_invariant_witness :
    (∀ k, ((after 20 [Call.Put "a" "12345", Call.Put "bb" "1234567890"])._lru_index k).isSome ↔
        k ∈ (after 20 [Call.Put "a" "12345", Call.Put "bb" "1234567890"]).entries.map Prod.fst) ∧
      ((after 20 [Call.Put "a" "12345", Call.Put "bb" "1234567890"]).entries.map Prod.fst).Nodup ∧
      (after 20 [Call.Put "a" "12345", Call.Put "bb" "1234567890"]).chain.Nodup ∧
      ∀ k a, (after 20 [Call.Put "a" "12345", Call.Put "bb" "1234567890"])._lru_index k = some a →
        a ∈ (after 20 [Call.Put "a" "12345", Call.Put "bb" "1234567890"]).chain ∧
        ∃ n, (after 20 [Call.Put "a" "12345", Call.Put "bb" "1234567890"]).heap a = some n ∧
          n.key = k :=
  bijection_invariant 20 (after 20 [Call.Put "a" "12345", Call.Put "bb" "1234567890"])
    (reachable_after 20 _ rfl)

/-- C3. Put/Get round trip: when `Put(k, v)` returns true in a reachable state,
a `Get(k)` issued right afterwards returns true and yields exactly `v`. -/
theorem put_get_round_trip (C : Nat) (s : SimpleLRU) (hr : Reachable C s) (k v : String)
    (s2 : SimpleLRU) (hp : s.Put k v = some (true, s2)) (out : String) :
    ∃ s3, s2.Get k out = some (true, v, s3) := by
  obtain ⟨L, hw, -, ht⟩ := Reachable.wf hr
  obtain ⟨L2, hw2, -, hc, -⟩ := Put_wf hw ht hp
  obtain ⟨a, rest, rfl⟩ := hc rfl
  have hw3 : WF s2 ([] ++ (a, k, v) :: rest) := hw2
  obtain ⟨s3, h3, -⟩ := Get_wf hw3 out
  exact ⟨s3, h3⟩

theorem put_get_round_trip_witness :
    ∃ s3, (after 20 [Call.Put "a" "12345", Call.Put "a" "xyz"]).Get "a" "" =
      some (true, "xyz", s3) :=
  put_get_round_trip 20 (after 20 [Call.Put "a" "12345"]) (reachable_after 20 _ rfl)
    "a" "xyz" (after 20 [Call.Put "a" "12345", Call.Put "a" "xyz"]) rfl ""

theorem Delete_flag {s s2 : SimpleLRU} {k : String} {a : Nat} {b : Bool}
    (hi : s._lru_index k = some a) (h : s.Delete k = some (b, s2)) : b = true := by
  simp only [Delete, hi, Option.bind_eq_bind, Option.bind_eq_some] at h
  obtain ⟨nd, -, h⟩ := h
  split_ifs at h <;> split at h <;>
    simp only [Option.bind_eq_some, Option.some.injEq, Prod.mk.injEq, Option.some_bind] at h
  · exact h.1.symm
  · obtain ⟨_, _, _, _, h, _⟩ := h; exact h.symm
  · obtain ⟨_, _, _, _, h, _⟩ := h; exact h.symm
  · obtain ⟨_, _, _, _, _, _, _, _, _, _, h, _⟩ := h; exact h.symm

theorem Get_flag {s s2 : SimpleLRU} {k out out2 : String} {a : Nat} {b : Bool}
    (hi : s._lru_index k = some a) (h : s.Get k out = some (b, out2, s2)) : b = true := by
  simp only [Get, hi, Option.bind_eq_bind, Option.bind_eq_some, Option.some.injEq,
    Prod.mk.injEq] at h
  obtain ⟨_, _, _, _, h, _⟩ := h
  exact h.symm

/-- Determinate failures are atomic: a call of Put, PutIfAbsent, Set, Delete or
Get whose `return false` statement is reached leaves the state exactly as it
was, and a failed Get leaves the caller's output string as it was.  The branch
of `Set` that ends without a `return` statement is not covered: its flag is
indeterminate. -/
theorem determinate_failure_atomic (s : SimpleLRU) (c : Call) (s2 : SimpleLRU)
    (h : s.result c = some (some false, s2)) :
    s2 = s ∧ ∀ k out, c = Call.Get k out → s.Get k out = some (false, out, s) := by
  cases c with
  | Put k v =>
    refine ⟨?_, fun _ _ h => by cases h⟩
    simp only [result, Put, Option.map_eq_some', Prod.mk.injEq, Option.some.injEq] at h
    obtain ⟨⟨b, s3⟩, h1, rfl, rfl⟩ := h
    by_cases hc : k.length + v.length > s._max_size
    · simp only [hc, if_true, Option.some.injEq, Prod.mk.injEq] at h1
      exact h1.2.symm
    · simp only [hc, if_false] at h1
      cases hi : s._lru_index k <;> simp [hi] at h1
  | PutIfAbsent k v =>
    refine ⟨?_, fun _ _ h => by cases h⟩
    simp only [result, PutIfAbsent, Option.map_eq_some', Prod.mk.injEq, Option.some.injEq] at h
    obtain ⟨⟨b, s3⟩, h1, rfl, rfl⟩ := h
    by_cases hc : k.length + v.length > s._max_size
    · simp only [hc, if_true, Option.some.injEq, Prod.mk.injEq] at h1
      exact h1.2.symm
    · simp only [hc, if_false] at h1
      cases hi : s._lru_index k <;> simp [hi] at h1
      exact h1.symm
  | Set k v =>
    refine ⟨?_, fun _ _ h => by cases h⟩
    simp only [result, SimpleLRU.Set] at h
    by_cases hc : k.length + v.length > s._max_size
    · simp only [hc, if_true, Option.some.injEq, Prod.mk.injEq] at h
      exact h.2.symm
    · simp only [hc, if_false] at h
      cases hi : s._lru_index k <;> simp [hi] at h
      exact h.symm
  | Delete k =>
    refine ⟨?_, fun _ _ h => by cases h⟩
    simp only [result, Option.map_eq_some', Prod.mk.injEq, Option.some.injEq] at h
    obtain ⟨⟨b, s3⟩, h1, rfl, rfl⟩ := h
    cases hi : s._lru_index k with
    | none =>
      simp only [Delete, hi, Option.some.injEq, Prod.mk.injEq] at h1
      exact h1.2.symm
    | some a =>
      cases Delete_flag hi h1
  | Get k v =>
    simp only [result, Option.map_eq_some', Prod.mk.injEq, Option.some.injEq] at h
    obtain ⟨⟨b, o, s3⟩, h1, rfl, rfl⟩ := h
    cases hi : s._lru_index k with
    | none =>
      simp only [Get, hi, Option.some.injEq, Prod.mk.injEq] at h1
      refine ⟨h1.2.2.symm, fun k2 out2 h2 => ?_⟩
      cases h2
      simp [Get, hi]
    | some a =>
      cases Get_flag hi h1

theorem determinate_failure_atomic_witness :
    after 5 [Call.Put "ab" "cd"] = after 5 [Call.Put "ab" "cd"] ∧
      ∀ k out, Call.Put "ab" "cdef" = Call.Get k out →
        (after 5 [Call.Put "ab" "cd"]).Get k out = some (false, out, after 5 [Call.Put "ab" "cd"]) :=
  determinate_failure_atomic (after 5 [Call.Put "ab" "cd"]) (Call.Put "ab" "cdef")
    (after 5 [Call.Put "ab" "cd"]) rfl

/-- C5. Failure atomicity, at a failing input: in the state after
`Put("ab", "cd")` in a cache of capacity 10, `Set("ab", "xy")` finds the key,
calls `SetImpl` and reaches the end of the function without a `return`
statement.  The flag the caller reads is indeterminate, so it can be false,
while the stored value has changed from "cd" to "xy": a call of `Set` that
the caller sees fail has mutated the state. -/
theorem failure_atomicity_set_mutates :
    Reachable 10 (after 10 [Call.Put "ab" "cd"]) ∧
      (after 10 [Call.Put "ab" "cd"]).entries = [("ab", "cd")] ∧
      ∃ s2, (after 10 [Call.Put "ab" "cd"]).result (Call.Set "ab" "xy") = some (none, s2) ∧
        s2.entries = [("ab", "xy")] ∧ s2 ≠ after 10 [Call.Put "ab" "cd"] ∧
        ∀ out, s2.Get "ab" out = some (true, "xy", s2) := by
  have he : (after 10 [Call.Put "ab" "cd"]).entries = [("ab", "cd")] := by decide
  refine ⟨reachable_after 10 _ rfl, he, (after 10 [Call.Put "ab" "cd", Call.Set "ab" "xy"]),
    rfl, by decide, ?_, fun out => rfl⟩
  intro h
  have h2 : (after 10 [Call.Put "ab" "cd", Call.Set "ab" "xy"]).entries = [("ab", "xy")] := by
    decide
  rw [h, he] at h2
  exact absurd h2 (by decide)

/-- C8. Recency ordering on Get: in a reachable state a `Get` of a present key
returns true with the stored value; afterwards the chain is that entry followed
by all other entries in their previous order, while the index and `_cur_size`
are unchanged; if the key was already at the head the chain is unchanged. -/
theorem get_moves_to_head (C : Nat) (s : SimpleLRU) (hr : Reachable C s) (k : String) (a : Nat)
    (hk : s._lru_index k = some a) (out : String) :
    ∃ w s2, (k, w) ∈ s.entries ∧ s.Get k out = some (true, w, s2) ∧
      s2.entries = (k, w) :: s.entries.filter (fun e => decide (e.1 ≠ k)) ∧
      s2._lru_index = s._lru_index ∧ s2._cur_size = s._cur_size ∧
      (s.entries.head? = some (k, w) → s2.entries = s.entries) := by
  obtain ⟨L, hw, -, -⟩ := Reachable.wf hr
  obtain ⟨L1, w, L2, rfl⟩ := hw.split_of_index hk
  obtain ⟨s2, h2, hw2, hc2, -, hi2, hs2⟩ := Get_wf (c := (a, k, w)) hw out
  refine ⟨w, s2, ?_, h2, ?_, hi2, hc2, ?_⟩
  · rw [hw.entries_eq]
    exact List.mem_map.2 ⟨(a, k, w), by simp, rfl⟩
  · rw [hw2.entries_eq, hw.entries_eq]
    have := filter_key (c := (a, k, w)) hw.keys
    rw [this]
    rfl
  · intro hh
    cases L1 with
    | nil => rw [hs2 rfl]
    | cons x L1 =>
      exfalso
      rw [hw.entries_eq] at hh
      simp only [List.cons_append, List.map_cons, List.head?_cons, Option.some.injEq,
        Prod.mk.injEq] at hh
      have hm := mem_remove_iff (c := (a, k, w)) hw.keys
      exact ((hm x).1 (by simp)).2 hh.1

theorem get_moves_to_head_witness :
    ∃ w s2, ("a", w) ∈ (after 20 [Call.Put "a" "12345", Call.Put "bb" "1234567890"]).entries ∧
      (after 20 [Call.Put "a" "12345", Call.Put "bb" "1234567890"]).Get "a" "" =
        some (true, w, s2) ∧
      s2.entries = ("a", w) ::
        (after 20 [Call.Put "a" "12345", Call.Put "bb" "1234567890"]).entries.filter
          (fun e => decide (e.1 ≠ "a")) ∧
      s2._lru_index = (after 20 [Call.Put "a" "12345", Call.Put "bb" "1234567890"])._lru_index ∧
      s2._cur_size = (after 20 [Call.Put "a" "12345", Call.Put "bb" "1234567890"])._cur_size ∧
      ((after 20 [Call.Put "a" "12345", Call.Put "bb" "1234567890"]).entries.head? =
        some ("a", w) →
        s2.entries = (after 20 [Call.Put "a" "12345", Call.Put "bb" "1234567890"]).entries) :=
  get_moves_to_head 20 (after 20 [Call.Put "a" "12345", Call.Put "bb" "1234567890"])
    (reachable_after 20 _ rfl) "a" 0 rfl ""

/-- C19. Tail pointer invariant: in every reachable state `_lru_tail` is null
when the chain is empty and otherwise points to the last node of the chain,
whose `next` is null. -/
theorem tail_pointer_invariant (C : Nat) (s : SimpleLRU) (hr : Reachable C s) :
    (s.chain = [] → s._lru_tail = none) ∧
      ∀ a, s.chain.getLast? = some a →
        s._lru_tail = some a ∧ ∃ n, s.heap a = some n ∧ n.next = none := by
  obtain ⟨L, hw, -, ht⟩ := Reachable.wf hr
  rw [hw.chain_eq]
  constructor
  · intro h
    exact ht (List.map_eq_nil_iff.1 h)
  · intro a ha
    rcases list_snoc_cases L with rfl | ⟨L0, d, rfl⟩
    · simp at ha
    · rw [List.map_append, List.map_cons, List.map_nil, List.getLast?_concat'] at ha
      cases ha
      refine ⟨hw.tail d (by simp), ?_⟩
      exact hw.run.last_next

theorem tail_pointer_invariant_witness :
    ((after 20 [Call.Put "a" "12345", Call.Delete "a"]).chain = [] →
        (after 20 [Call.Put "a" "12345", Call.Delete "a"])._lru_tail = none) ∧
      ∀ a, (after 20 [Call.Put "a" "12345", Call.Delete "a"]).chain.getLast? = some a →
        (after 20 [Call.Put "a" "12345", Call.Delete "a"])._lru_tail = some a ∧
          ∃ n, (after 20 [Call.Put "a" "12345", Call.Delete "a"]).heap a = some n ∧
            n.next = none :=
  tail_pointer_invariant 20 (after 20 [Call.Put "a" "12345", Call.Delete "a"])
    (reachable_after 20 _ rfl)

theorem run_append (s : SimpleLRU) (cs1 cs2 : List Call) :
    s.run (cs1 ++ cs2) = (s.run cs1).bind fun s1 => s1.run cs2 := by
  induction cs1 generalizing s with
  | nil => simp [run]
  | cons c cs ih =>
    simp only [List.cons_append, run]
    cases step s c with
    | none => rfl
    | some s1 => simp [ih]

theorem big_value2_length : big_value2.length = 4294967294 := by
  unfold big_value2
  rw [String.length, List.length_replicate]
  norm_num

theorem drift_low (v : String) (hv : v.length = 4294967296) :
    (init 4294967297).run [Call.Put "k" "", Call.Put "k" v] =
      some (single 4294967297 1 "k" v) := by
  have hk : "k".length = 1 := by decide
  have he : "".length = 0 := by decide
  have e1 := init_put 4294967297 "k" "" (by rw [hk, he]; norm_num) (by norm_num)
  have e2 := single_put 4294967297 1 "k" "" v (by rw [hv, hk])
    (by rw [delta_up v hv]; norm_num [size_add])
  rw [delta_up v hv] at e2
  rw [hk, he] at e1
  have e3 : size_add 1 0 = 1 := by norm_num [size_add]
  rw [e3] at e2
  simp only [run, step, e1, Option.map_some', Option.some_bind, e2]

theorem drift_high (v : String) (hv : v.length = 4294967296) :
    (init 4294967297).run [Call.Put "k" v, Call.Put "k" ""] =
      some (single 4294967297 4294967297 "k" "") := by
  have hk : "k".length = 1 := by decide
  have he : "".length = 0 := by decide
  have e1 := init_put 4294967297 "k" v (by rw [hk, hv]) (by norm_num)
  have e2 := single_put 4294967297 4294967297 "k" v "" (by rw [he, hk]; norm_num)
    (by rw [delta_down v hv]; norm_num [size_add])
  rw [delta_down v hv] at e2
  rw [hk, hv] at e1
  have e3 : size_add 4294967297 0 = 4294967297 := by norm_num [size_add]
  rw [e3] at e2
  simp only [run, step, e1, Option.map_some', Option.some_bind, e2]

theorem hjk : "j" ≠ "k" := by decide

theorem drifted_put_undefined :
    "j".length + "x".length ≤ (single 4294967297 4294967297 "k" "")._max_size ∧
      (single 4294967297 4294967297 "k" "")._lru_index "j" = none ∧
      (single 4294967297 4294967297 "k" "").Put "j" "x" = none ∧
      (single 4294967297 4294967297 "k" "").PutIfAbsent "j" "x" = none ∧
      ∃ s1, (single 4294967297 4294967297 "k" "").delete_last = some s1 ∧
        s1.chain = [] ∧ size_add s1._cur_size ("j".length + "x".length) > s1._max_size ∧
        s1._lru_tail = some 0 ∧ s1.heap 0 = none ∧ s1.delete_last = none := by
  have hj : "j".length = 1 := by decide
  have hx : "x".length = 1 := by decide
  have hk : "k".length = 1 := by decide
  have he : "".length = 0 := by decide
  refine ⟨by decide, by decide, ?_, ?_, ?_⟩
  · simp [Put, single, hj, hx, hk, he, hjk, PutImpl, evict_loop, size_add, size_sub, delete_last,
      reset_head, destroy]
  · simp [PutIfAbsent, single, hj, hx, hk, he, hjk, PutImpl, evict_loop, size_add, size_sub,
      delete_last, reset_head, destroy]
  · simp [single, hj, hx, hk, he, size_add, size_sub, delete_last, reset_head, destroy, chain,
      walk]

theorem C7_gen (v : String) (hv : v.length = 4294967296) :
    ∃ s s2, (init 4294967297).run [Call.Put "k" "", Call.Put "k" v] = some s ∧
      s.entries = [("k", v)] ∧ s._lru_index "j" = none ∧
      entry_size ("j", "") ≤ s._max_size ∧
      s.Put "j" "" = some (true, s2) ∧
      s2.entries = [("j", ""), ("k", v)] ∧
      longest_fit (s._max_size - entry_size ("j", "")) s.entries = [] := by
  have hj : "j".length = 1 := by decide
  have hk : "k".length = 1 := by decide
  have he : "".length = 0 := by decide
  have hp : ∃ s2, (single 4294967297 1 "k" v).Put "j" "" = some (true, s2) ∧
      s2.entries = [("j", ""), ("k", v)] := by
    simp [Put, single, hj, he, hjk, PutImpl, evict_loop, size_add, insert_node, set_prev,
      reset_next, reset_head, destroy, entries, nodes, chain, walk]
  obtain ⟨s2, hp1, hp2⟩ := hp
  refine ⟨single 4294967297 1 "k" v, s2, drift_low v hv, single_entries _ _ _ _, ?_, ?_,
    hp1, hp2, ?_⟩
  · simp [single, hjk]
  · simp [single, entry_size, hj, he]
  · rw [single_entries]
    simp [longest_fit, entry_size, hj, he, hk, hv, single]

theorem C9_gen (v : String) (hv : v.length = 4294967296) :
    ∃ s s2, (init 4294967297).run [Call.Put "a" "", Call.Put "k" ""] = some s ∧
      s.entries = [("k", ""), ("a", "")] ∧ s._lru_index "k" = some 1 ∧
      entry_size ("k", v) ≤ s._max_size ∧
      s.Set "k" v = some (none, s2) ∧
      s2.entries = [("k", v), ("a", "")] ∧
      longest_fit (s._max_size - entry_size ("k", v)) [("a", "")] = [] := by
  have ha : "a".length = 1 := by decide
  have hk : "k".length = 1 := by decide
  have he : "".length = 0 := by decide
  have hka : "k" ≠ "a" := by decide
  have hd : to_size_t (to_int (size_sub 4294967296 0)) = 0 := by decide
  simp [run, step, Put, init, ha, he, hk, hka, hka.symm, PutImpl, evict_loop, size_add,
    insert_node, set_prev, reset_next, reset_head, destroy, entries, nodes, chain, walk,
    SimpleLRU.Set, SetImpl, node_to_head, hv, hd, entry_size, longest_fit]

theorem C10_gen (v : String) (hv : v.length = 4294967296) :
    ∃ s s1 s2, (init 4294967297).run [Call.Put "k" v, Call.Put "k" ""] = some s ∧
      s.entries = [("k", "")] ∧ s.Get "k" "" = some (true, "", s1) ∧
      s1._lru_index "j" = none ∧
      "k".length + "".length + "j".length + "".length ≤ s1._max_size ∧
      s1.Put "j" "" = some (true, s2) ∧ s2.entries = [("j", "")] ∧
      s2.Get "k" "" = some (false, "", s2) := by
  have hj : "j".length = 1 := by decide
  have hk : "k".length = 1 := by decide
  have he : "".length = 0 := by decide
  have hp : ∃ s1 s2, (single 4294967297 4294967297 "k" "").Get "k" "" = some (true, "", s1) ∧
      s1._lru_index "j" = none ∧
      "k".length + "".length + "j".length + "".length ≤ s1._max_size ∧
      s1.Put "j" "" = some (true, s2) ∧ s2.entries = [("j", "")] ∧
      s2.Get "k" "" = some (false, "", s2) := by
    simp [Get, single, node_to_head, hj, hk, he, hjk, hjk.symm, Put, PutImpl, evict_loop,
      size_add, size_sub, delete_last, insert_node, set_prev, reset_next, reset_head, destroy,
      entries, nodes, chain, walk]
  obtain ⟨s1, s2, h⟩ := hp
  exact ⟨single 4294967297 4294967297 "k" "", s1, s2, drift_high v hv, single_entries _ _ _ _, h⟩

theorem C12_gen (v : String) (hv : v.length = 4294967296) :
    ∃ s s2, (init 4294967297).run [Call.Put "k" "", Call.Put "k" v] = some s ∧
      s._cur_size = 1 ∧ s.entries = [("k", v)] ∧ s._lru_index "k" = some 0 ∧
      s.Delete "k" = some (true, s2) ∧ s2._cur_size = 18446744069414584320 := by
  have hk : "k".length = 1 := by decide
  have hp : ∃ s2, (single 4294967297 1 "k" v).Delete "k" = some (true, s2) ∧
      s2._cur_size = 18446744069414584320 := by
    simp [Delete, single, hk, hv, size_sub, reset_head, destroy]
  obtain ⟨s2, h1, h2⟩ := hp
  exact ⟨single 4294967297 1 "k" v, s2, drift_low v hv, rfl, single_entries _ _ _ _,
    by simp [single], h1, h2⟩

theorem C20_gen (v w : String) (hv : v.length = 4294967296) (hw : w.length = 4294967294) :
    ∃ s, (init 4294967297).run [Call.Put "k" "", Call.Put "k" v] = some s ∧
      s.entries = [("k", v)] ∧ s._cur_size = 1 ∧
      v.length - w.length < 2 ^ 31 ∧
      to_int (size_sub w.length v.length) = -2 ∧
      size_add s._cur_size (to_size_t (to_int (size_sub w.length v.length))) =
        18446744073709551615 ∧
      (s._cur_size : Int) - (v.length : Int) + (w.length : Int) = -1 ∧
      s.Put "k" w = none := by
  have hk : "k".length = 1 := by decide
  have h1 : to_int (size_sub 4294967294 4294967296) = -2 := by decide
  have h2 : to_size_t (-2) = 18446744073709551614 := by decide
  have h3 : to_size_t (to_int 18446744073709551614) = 18446744073709551614 := by decide
  have h4 : size_add 1 18446744073709551614 = 18446744073709551615 := by decide
  refine ⟨single 4294967297 1 "k" v, drift_low v hv, single_entries _ _ _ _, rfl, ?_, ?_, ?_,
    ?_, ?_⟩
  · rw [hv, hw]; norm_num
  · rw [hv, hw]; exact h1
  · rw [hv, hw, h1, h2]
    simp only [single]
    exact h4
  · rw [hv, hw]
    show ((1 : Nat) : Int) - ((4294967296 : Nat) : Int) + ((4294967294 : Nat) : Int) = -1
    omega
  · simp [Put, single, hk, hv, hw, h1, h2, h3, SetImpl, node_to_head, evict_loop, size_add,
      size_sub, delete_last, reset_head, destroy]

/-- C1. Size invariant, at a failing input: in a cache of capacity 2^32 + 1 the
calls `Put("k", "")` and `Put("k", v)` with a value `v` of 4 GiB both succeed,
the second through `SetImpl`, whose `int delta_sz` keeps only the low 32 bits
of the difference 2^32; `_cur_size` stays 1 while the chain holds 2^32 + 1
bytes. -/
theorem size_invariant_drift :
    ∃ s, (init 4294967297).run [Call.Put "k" "", Call.Put "k" big_value] = some s ∧
      s._cur_size = 1 ∧ s.total_size = 4294967297 :=
  C1_drift_gen big_value big_value_length

/-- C4. Admission boundary, at a failing input: after `Put("k", v)` with a value
of 4 GiB and `Put("k", "")` in a cache of capacity 2^32 + 1, `_cur_size` is
still 2^32 + 1 for a chain of one byte; `Put("j", "x")`, an entry of two bytes,
is then not accepted: its eviction loop empties the chain and calls
`delete_last` once more, on a dangling `_lru_tail`. -/
theorem put_admission_drift :
    ∃ s, (init 4294967297).run [Call.Put "k" big_value, Call.Put "k" ""] = some s ∧
      "j".length + "x".length ≤ s._max_size ∧ s.Put "j" "x" = none :=
  ⟨_, drift_high big_value big_value_length, drifted_put_undefined.1,
    drifted_put_undefined.2.2.1⟩

/-- C6. Set result, at a failing input: `Set` on a present key with an entry
that fits updates the cache but returns no determinate flag, since the branch
that calls `SetImpl` has no `return` statement. -/
theorem set_result_indeterminate :
    (after 20 [Call.Put "a" "1"])._lru_index "a" = some 0 ∧
      "a".length + "2".length ≤ (after 20 [Call.Put "a" "1"])._max_size ∧
      (((after 20 [Call.Put "a" "1"]).Set "a" "2").map fun r => r.1) = some none ∧
      (((after 20 [Call.Put "a" "1"]).Set "a" "2").map fun r => r.2.entries) =
        some [("a", "2")] := by
  refine ⟨rfl, by decide, rfl, by decide⟩

/-- C7. Eviction order, at a failing input: after `Put("k", "")` and
`Put("k", v)` with a value of 4 GiB in a cache of capacity 2^32 + 1,
`_cur_size` is 1 for a chain of 2^32 + 1 bytes; `Put("j", "")` then evicts
nothing and leaves both entries, although no entry fits beside the new one. -/
theorem eviction_order_drift :
    ∃ s s2, (init 4294967297).run [Call.Put "k" "", Call.Put "k" big_value] = some s ∧
      s.entries = [("k", big_value)] ∧ s._lru_index "j" = none ∧
      entry_size ("j", "") ≤ s._max_size ∧
      s.Put "j" "" = some (true, s2) ∧
      s2.entries = [("j", ""), ("k", big_value)] ∧
      longest_fit (s._max_size - entry_size ("j", "")) s.entries = [] :=
  C7_gen big_value big_value_length

/-- C9. Set on a present key, at a failing input: in a cache of capacity
2^32 + 1 holding `("k", "")` and `("a", "")`, `Set("k", v)` with a value of
4 GiB evicts nothing, because `int delta_sz` is 0, and leaves `("a", "")`
behind the updated entry although the two no longer fit together. -/
theorem set_eviction_drift :
    ∃ s s2, (init 4294967297).run [Call.Put "a" "", Call.Put "k" ""] = some s ∧
      s.entries = [("k", ""), ("a", "")] ∧ s._lru_index "k" = some 1 ∧
      entry_size ("k", big_value) ≤ s._max_size ∧
      s.Set "k" big_value = some (none, s2) ∧
      s2.entries = [("k", big_value), ("a", "")] ∧
      longest_fit (s._max_size - entry_size ("k", big_value)) [("a", "")] = [] :=
  C9_gen big_value big_value_length

/-- C10. LRU protection, at a failing input: after `Put("k", v)` with a value of
4 GiB and `Put("k", "")` in a cache of capacity 2^32 + 1, `_cur_size` is still
2^32 + 1; `Get("k")` followed by `Put("j", "")` evicts `k`, the most recently
used key, although both entries together take two bytes. -/
theorem lru_protection_drift :
    ∃ s s1 s2, (init 4294967297).run [Call.Put "k" big_value, Call.Put "k" ""] = some s ∧
      s.entries = [("k", "")] ∧ s.Get "k" "" = some (true, "", s1) ∧
      s1._lru_index "j" = none ∧
      "k".length + "".length + "j".length + "".length ≤ s1._max_size ∧
      s1.Put "j" "" = some (true, s2) ∧ s2.entries = [("j", "")] ∧
      s2.Get "k" "" = some (false, "", s2) :=
  C10_gen big_value big_value_length

/-- C11. PutIfAbsent, at a failing input: after `Put("k", v)` with a value of
4 GiB and `Put("k", "")` in a cache of capacity 2^32 + 1, `PutIfAbsent("j", "x")`
with an absent key and an entry of two bytes does not return true: its eviction
loop calls `delete_last` on a dangling `_lru_tail`. -/
theorem put_if_absent_drift :
    ∃ s, (init 4294967297).run [Call.Put "k" big_value, Call.Put "k" ""] = some s ∧
      s._lru_index "j" = none ∧ "j".length + "x".length ≤ s._max_size ∧
      s.PutIfAbsent "j" "x" = none :=
  ⟨_, drift_high big_value big_value_length, drifted_put_undefined.2.1,
    drifted_put_undefined.1, drifted_put_undefined.2.2.2.1⟩

/-- C12. Delete of a present key, at a failing input: after `Put("k", "")` and
`Put("k", v)` with a value of 4 GiB in a cache of capacity 2^32 + 1,
`_cur_size` is 1; `Delete("k")` subtracts the 2^32 + 1 bytes of the entry and
leaves `_cur_size` at 2^64 - 2^32. -/
theorem delete_size_drift :
    ∃ s s2, (init 4294967297).run [Call.Put "k" "", Call.Put "k" big_value] = some s ∧
      s._cur_size = 1 ∧ s.entries = [("k", big_value)] ∧ s._lru_index "k" = some 0 ∧
      s.Delete "k" = some (true, s2) ∧ s2._cur_size = 18446744069414584320 :=
  C12_gen big_value big_value_length

/-- C17. Back-link invariant, at a failing input: `node_to_head` never resets
the `prev` of the node it moves, so after `Put("a","1")`, `Put("b","2")`,
`Get("a")` the head node (at address 0) still has the node of `b` (at address 1)
as its `prev`; after `Delete("b")` that `prev` points to a freed node. -/
theorem back_link_stale :
    ((init 20).run [Call.Put "a" "1", Call.Put "b" "2", Call.Get "a" ""]).isSome = true ∧
      (after 20 [Call.Put "a" "1", Call.Put "b" "2", Call.Get "a" ""])._lru_head = some 0 ∧
      ((after 20 [Call.Put "a" "1", Call.Put "b" "2", Call.Get "a" ""]).heap 0).map
        (fun n => (n.key, n.prev)) = some ("a", some 1) ∧
      ((init 20).run
        [Call.Put "a" "1", Call.Put "b" "2", Call.Get "a" "", Call.Delete "b"]).isSome = true ∧
      (after 20 [Call.Put "a" "1", Call.Put "b" "2", Call.Get "a" "", Call.Delete "b"])._lru_head =
        some 0 ∧
      ((after 20 [Call.Put "a" "1", Call.Put "b" "2", Call.Get "a" "", Call.Delete "b"]).heap 0).map
        (fun n => (n.key, n.prev)) = some ("a", some 1) ∧
      ((after 20 [Call.Put "a" "1", Call.Put "b" "2", Call.Get "a" "", Call.Delete "b"]).heap
        1).isSome = false := by
  refine ⟨rfl, rfl, rfl, rfl, rfl, rfl, rfl⟩

/-- C18. Eviction loop safety, at a failing input: after `Put("k", v)` with a
value of 4 GiB and `Put("k", "")` in a cache of capacity 2^32 + 1, the loop of
`Put("j", "x")` removes the only node and finds its condition still true: the
chain is empty, `_lru_tail` points to the freed node, and the next
`delete_last` dereferences it. -/
theorem eviction_loop_dangling_tail :
    ∃ s s1, (init 4294967297).run [Call.Put "k" big_value, Call.Put "k" ""] = some s ∧
      "j".length + "x".length ≤ s._max_size ∧
      s.delete_last = some s1 ∧
      s1.chain = [] ∧ size_add s1._cur_size ("j".length + "x".length) > s1._max_size ∧
      s1._lru_tail = some 0 ∧ s1.heap 0 = none ∧ s1.delete_last = none := by
  obtain ⟨h1, -, -, -, s1, h2⟩ := drifted_put_undefined
  exact ⟨_, s1, drift_high big_value big_value_length, h1, h2⟩

/-- C20. Size-delta arithmetic, at a failing input: after `Put("k", "")` and
`Put("k", v)` with a value of 4 GiB in a cache of capacity 2^32 + 1,
`_cur_size` is 1; for a new value two bytes shorter `delta_sz` is -2, and
`_cur_size + delta_sz` wraps around to 2^64 - 1 where the claim expects
`_cur_size - len(w) + len(v)`, which is -1; the loop then empties the chain. -/
theorem size_delta_wraparound :
    ∃ s, (init 4294967297).run [Call.Put "k" "", Call.Put "k" big_value] = some s ∧
      s.entries = [("k", big_value)] ∧ s._cur_size = 1 ∧
      big_value.length - big_value2.length < 2 ^ 31 ∧
      to_int (size_sub big_value2.length big_value.length) = -2 ∧
      size_add s._cur_size (to_size_t (to_int (size_sub big_value2.length big_value.length))) =
        18446744073709551615 ∧
      (s._cur_size : Int) - (big_value.length : Int) + (big_value2.length : Int) = -1 ∧
      s.Put "k" big_value2 = none :=
  C20_gen big_value big_value2 big_value_length big_value2_length

theorem foldl_append_replicate {α β : Type} (x : α) (l : List β) (acc : List α) :
    l.foldl (fun acc _ => acc ++ [x]) acc = acc ++ List.replicate l.length x := by
  induction l generalizing acc with
  | nil => simp
  | cons b l ih =>
    rw [List.foldl_cons, ih, List.length_cons, List.replicate_succ, List.append_assoc]
    rfl

theorem StripedLRU.init_shards (hash : String → Nat) (count m : Nat) :
    (StripedLRU.init hash count m).shards = List.replicate count (ThreadSafeSimplLRU.init m) := by
  unfold StripedLRU.init
  simp only
  rw [foldl_append_replicate, List.length_range, List.nil_append]

/-- C13. Striped construction: for a shard count of at least one, `Make_stor`
throws exactly when `total_capacity / shard_count` is below 2 MiB, and then no
cache exists; otherwise it returns a cache of exactly `shard_count` shards,
each constructed with capacity `total_capacity / shard_count`. -/
theorem make_stor_floor (hash : String → Nat) (count total : Nat) (hc : 1 ≤ count) :
    (total / count < 2 * 1024 * 1024 →
        Make_stor hash count total = some (Made.thrown "Small storage!")) ∧
      (¬ total / count < 2 * 1024 * 1024 →
        ∃ st, Make_stor hash count total = some (Made.made st) ∧ st.count = count ∧
          st.shards.length = count ∧
          st.shards = List.replicate count (ThreadSafeSimplLRU.init (total / count))) := by
  have h0 : count ≠ 0 := by omega
  constructor
  · intro h
    simp only [Make_stor, h0, if_false, h, if_true]
  · intro h
    refine ⟨StripedLRU.init hash count (total / count), ?_, rfl, ?_, ?_⟩
    · simp only [Make_stor, h0, if_false, h]
    · rw [StripedLRU.init_shards, List.length_replicate]
    · rw [StripedLRU.init_shards]

theorem make_stor_floor_witness :
    Make_stor (fun k => k.length) 4 (4 * 1024 * 1024) = some (Made.thrown "Small storage!") :=
  (make_stor_floor (fun k => k.length) 4 (4 * 1024 * 1024) (by decide)).1 (by decide)

/-- C14. Striped forwarding and frame: in a cache with `count ≥ 1` shards each of
the five operations is the same operation of shard number `hash(key) % count`:
it returns what that shard returns, replaces that shard by the state the direct
call leaves, and leaves every other shard as it was. -/
theorem striped_forwarding (st : StripedLRU) (hpos : 0 < st.count)
    (hlen : st.shards.length = st.count) (key value : String) :
    ∃ sh, st.shards[st.shard_index key]? = some sh ∧
      st.Put key value = (sh.Put key value).map
        (fun r => (r.1, { st with shards := st.shards.set (st.shard_index key) r.2 })) ∧
      st.PutIfAbsent key value = (sh.PutIfAbsent key value).map
        (fun r => (r.1, { st with shards := st.shards.set (st.shard_index key) r.2 })) ∧
      st.Set key value = (sh.Set key value).map
        (fun r => (r.1, { st with shards := st.shards.set (st.shard_index key) r.2 })) ∧
      st.Delete key = (sh.Delete key).map
        (fun r => (r.1, { st with shards := st.shards.set (st.shard_index key) r.2 })) ∧
      st.Get key value = (sh.Get key value).map
        (fun r => (r.1, { st with shards := st.shards.set (st.shard_index key) r.2 })) ∧
      ∀ sh2 : ThreadSafeSimplLRU,
        (st.shards.set (st.shard_index key) sh2)[st.shard_index key]? = some sh2 ∧
        (st.shards.set (st.shard_index key) sh2).length = st.count ∧
        ∀ j, j ≠ st.shard_index key →
          (st.shards.set (st.shard_index key) sh2)[j]? = st.shards[j]? := by
  have hlt : st.shard_index key < st.shards.length := by
    rw [hlen]; exact Nat.mod_lt _ hpos
  have h0 : st.count ≠ 0 := by omega
  refine ⟨st.shards[st.shard_index key], List.getElem?_eq_getElem hlt, ?_, ?_, ?_, ?_, ?_, ?_⟩
  · simp only [StripedLRU.Put, StripedLRU.forward, h0, if_false,
      List.getElem?_eq_getElem hlt, Option.some_bind]
  · simp only [StripedLRU.PutIfAbsent, StripedLRU.forward, h0, if_false,
      List.getElem?_eq_getElem hlt, Option.some_bind]
  · simp only [StripedLRU.Set, StripedLRU.forward, h0, if_false,
      List.getElem?_eq_getElem hlt, Option.some_bind]
  · simp only [StripedLRU.Delete, StripedLRU.forward, h0, if_false,
      List.getElem?_eq_getElem hlt, Option.some_bind]
  · simp only [StripedLRU.Get, StripedLRU.forward, h0, if_false,
      List.getElem?_eq_getElem hlt, Option.some_bind]
  · intro sh2
    refine ⟨List.getElem?_set_self hlt, by rw [List.length_set, hlen], fun j hj => ?_⟩
    exact List.getElem?_set_ne (Ne.symm hj)

theorem striped_forwarding_witness :
    ∃ sh, (StripedLRU.init (fun k => k.length) 4 2097152).shards[
        (StripedLRU.init (fun k => k.length) 4 2097152).shard_index "ab"]? = some sh ∧
      (StripedLRU.init (fun k => k.length) 4 2097152).Put "ab" "cd" = (sh.Put "ab" "cd").map
        (fun r => (r.1, { StripedLRU.init (fun k => k.length) 4 2097152 with
          shards := (StripedLRU.init (fun k => k.length) 4 2097152).shards.set
            ((StripedLRU.init (fun k => k.length) 4 2097152).shard_index "ab") r.2 })) ∧
      (StripedLRU.init (fun k => k.length) 4 2097152).PutIfAbsent "ab" "cd" =
        (sh.PutIfAbsent "ab" "cd").map
        (fun r => (r.1, { StripedLRU.init (fun k => k.length) 4 2097152 with
          shards := (StripedLRU.init (fun k => k.length) 4 2097152).shards.set
            ((StripedLRU.init (fun k => k.length) 4 2097152).shard_index "ab") r.2 })) ∧
      (StripedLRU.init (fun k => k.length) 4 2097152).Set "ab" "cd" = (sh.Set "ab" "cd").map
        (fun r => (r.1, { StripedLRU.init (fun k => k.length) 4 2097152 with
          shards := (StripedLRU.init (fun k => k.length) 4 2097152).shards.set
            ((StripedLRU.init (fun k => k.length) 4 2097152).shard_index "ab") r.2 })) ∧
      (StripedLRU.init (fun k => k.length) 4 2097152).Delete "ab" = (sh.Delete "ab").map
        (fun r => (r.1, { StripedLRU.init (fun k => k.length) 4 2097152 with
          shards := (StripedLRU.init (fun k => k.length) 4 2097152).shards.set
            ((StripedLRU.init (fun k => k.length) 4 2097152).shard_index "ab") r.2 })) ∧
      (StripedLRU.init (fun k => k.length) 4 2097152).Get "ab" "cd" = (sh.Get "ab" "cd").map
        (fun r => (r.1, { StripedLRU.init (fun k => k.length) 4 2097152 with
          shards := (StripedLRU.init (fun k => k.length) 4 2097152).shards.set
            ((StripedLRU.init (fun k => k.length) 4 2097152).shard_index "ab") r.2 })) ∧
      ∀ sh2 : ThreadSafeSimplLRU,
        ((StripedLRU.init (fun k => k.length) 4 2097152).shards.set
          ((StripedLRU.init (fun k => k.length) 4 2097152).shard_index "ab") sh2)[
            (StripedLRU.init (fun k => k.length) 4 2097152).shard_index "ab"]? = some sh2 ∧
        ((StripedLRU.init (fun k => k.length) 4 2097152).shards.set
          ((StripedLRU.init (fun k => k.length) 4 2097152).shard_index "ab") sh2).length =
            (StripedLRU.init (fun k => k.length) 4 2097152).count ∧
        ∀ j, j ≠ (StripedLRU.init (fun k => k.length) 4 2097152).shard_index "ab" →
          ((StripedLRU.init (fun k => k.length) 4 2097152).shards.set
            ((StripedLRU.init (fun k => k.length) 4 2097152).shard_index "ab") sh2)[j]? =
              (StripedLRU.init (fun k => k.length) 4 2097152).shards[j]? :=
  striped_forwarding (StripedLRU.init (fun k => k.length) 4 2097152) (by decide) (by decide)
    "ab" "cd"

theorem evict_loop_fuel (add : Nat) {s : SimpleLRU} {L : List Cell} (hw : WF s L)
    (fuel n : Nat) (hf : L.length < fuel) (hn : L.length < n) :
    evict_loop add fuel s = evict_loop add n s := by
  induction fuel generalizing s L n with
  | zero => omega
  | succ f ih =>
    cases n with
    | zero => omega
    | succ m =>
      by_cases hc : size_add s._cur_size add > s._max_size
      · simp only [evict_loop, hc, if_true]
        rcases list_snoc_cases L with rfl | ⟨L0, c, rfl⟩
        · rw [delete_last_nil hw]; rfl
        · obtain ⟨s2, h2, hw2, -⟩ := delete_last_wf hw
          rw [h2, Option.some_bind, Option.some_bind]
          simp only [List.length_append, List.length_singleton] at hf hn
          exact ih hw2 m (by omega) (by omega)
      · simp only [evict_loop, hc, if_false]

theorem evict_loop_fuel_reachable (C : Nat) (s : SimpleLRU) (hr : Reachable C s)
    (add fuel : Nat) (hf : s.brk + 1 ≤ fuel) :
    evict_loop add fuel s = evict_loop add (s.brk + 1) s := by
  obtain ⟨L, hw, -, -⟩ := Reachable.wf hr
  have hl : L.length ≤ s.brk := by
    simpa using length_le_of_bound hw.nodup hw.bound
  exact evict_loop_fuel add hw fuel (s.brk + 1) (by omega) (by omega)

theorem scenario_eviction :
    ∃ s, (init 20).run [Call.Put "a" "12345", Call.Put "bb" "1234567890", Call.Put "c" "zz"] =
        some s ∧
      s.entries = [("c", "zz"), ("bb", "1234567890")] ∧ s._cur_size = 15 ∧
      (s.Get "a" "").map (fun r => (r.1, r.2.1)) = some (false, "") ∧
      (s.Get "bb" "").map (fun r => (r.1, r.2.1)) = some (true, "1234567890") := by
  have h1 : "a".length = 1 := by decide
  have h2 : "12345".length = 5 := by decide
  have h3 : "bb".length = 2 := by decide
  have h4 : "1234567890".length = 10 := by decide
  have h5 : "c".length = 1 := by decide
  have h6 : "zz".length = 2 := by decide
  have n1 : "a" ≠ "bb" := by decide
  have n2 : "a" ≠ "c" := by decide
  have n3 : "bb" ≠ "c" := by decide
  simp [run, step, Put, init, h1, h2, h3, h4, h5, h6, n1, n2, n3, n1.symm, n2.symm, n3.symm,
    PutImpl, evict_loop, size_add, size_sub, delete_last, insert_node, set_prev, reset_next,
    reset_head, destroy, entries, nodes, chain, walk, Get, node_to_head, node_to_head_last,
    release_next]

theorem scenario_oversized :
    ∃ s, (init 5).run [Call.Put "ab" "cd"] = some s ∧
      s.Put "ab" "cdef" = some (false, s) ∧
      (s.Get "ab" "").map (fun r => (r.1, r.2.1)) = some (true, "cd") := by
  have h1 : "ab".length = 2 := by decide
  have h2 : "cd".length = 2 := by decide
  have h3 : "cdef".length = 4 := by decide
  simp [run, step, Put, init, h1, h2, h3, PutImpl, evict_loop, size_add, insert_node,
    reset_next, reset_head, destroy, Get, node_to_head]

theorem scenario_put_if_absent :
    ∃ s, (init 20).run [Call.PutIfAbsent "x" "1"] = some s ∧
      (init 20).PutIfAbsent "x" "1" = some (true, s) ∧
      s.PutIfAbsent "x" "2" = some (false, s) ∧
      (s.Get "x" "").map (fun r => (r.1, r.2.1)) = some (true, "1") ∧
      (init 20).Set "missing" "v" = some (some false, init 20) := by
  have h1 : "x".length = 1 := by decide
  have h2 : "1".length = 1 := by decide
  have h3 : "2".length = 1 := by decide
  have h4 : "missing".length = 7 := by decide
  have h5 : "v".length = 1 := by decide
  simp [run, step, PutIfAbsent, init, h1, h2, h3, h4, h5, PutImpl, evict_loop, size_add,
    insert_node, reset_next, reset_head, destroy, Get, node_to_head, SimpleLRU.Set]

theorem size_sub_eq (a b : Nat) (hb : b ≤ a) (ha : a < 2 ^ 64) : size_sub a b = a - b := by
  unfold size_sub
  omega

theorem size_add_eq (a b : Nat) (h : a + b < 2 ^ 64) : size_add a b = a + b := by
  unfold size_add
  omega

theorem delta_exact (cur a b : Nat) (ha : a < 2 ^ 31) (hb : b < 2 ^ 31) (hc : b ≤ cur + a)
    (hlt : cur + a < 2 ^ 64) :
    size_add cur (to_size_t (to_int (size_sub a b))) = cur + a - b := by
  unfold size_add to_size_t to_int size_sub
  split_ifs with h <;> omega

theorem sum_snoc (P R : List Cell) (c : Cell) :
    ((P ++ (R ++ [c])).map csize).sum = ((P ++ R).map csize).sum + csize c := by
  simp only [List.map_append, List.sum_append, List.map_cons, List.map_nil, List.sum_cons,
    List.sum_nil]
  omega

theorem sum_prefix_le (P R : List Cell) :
    (P.map csize).sum ≤ ((P ++ R).map csize).sum := by
  simp only [List.map_append, List.sum_append]
  omega

theorem evict_loop_exact (add up dn : Nat) (fuel : Nat) {s : SimpleLRU} {P R : List Cell}
    (hw : WF s (P ++ R)) (hcur : s._cur_size = ((P ++ R).map csize).sum)
    (hlt : s._cur_size < 2 ^ 64)
    (H : ∀ x, x ≤ s._cur_size → (P.map csize).sum ≤ x → size_add x add = x + up - dn)
    (hP : (P.map csize).sum + up - dn ≤ s._max_size) (hf : R.length < fuel) :
    ∃ s1 m, evict_loop add fuel s = some s1 ∧ m ≤ R.length ∧ WF s1 (P ++ R.take m) ∧
      s1._cur_size = ((P ++ R.take m).map csize).sum ∧ s1._max_size = s._max_size ∧
      s1.brk = s.brk ∧ ((P ++ R.take m).map csize).sum + up - dn ≤ s._max_size ∧
      ∀ j, m < j → j ≤ R.length → s._max_size < ((P ++ R.take j).map csize).sum + up - dn := by
  induction fuel generalizing s R with
  | zero => omega
  | succ f ih =>
    have hx := H s._cur_size (le_refl _) (hcur ▸ sum_prefix_le P R)
    by_cases hc : size_add s._cur_size add > s._max_size
    · rcases list_snoc_cases R with rfl | ⟨R0, c, rfl⟩
      · exfalso
        rw [hx, hcur] at hc
        simp only [List.append_nil] at hc
        omega
      · have hw2 : WF s ((P ++ R0) ++ [c]) := by rwa [List.append_assoc]
        obtain ⟨s2, h2, hw3, hc2, hm2, hb2⟩ := delete_last_wf hw2
        have hsum := sum_snoc P R0 c
        have hcur2 : s2._cur_size = ((P ++ R0).map csize).sum := by
          rw [hc2, size_sub_eq _ _ (by rw [hcur, hsum]; unfold csize; omega) hlt, hcur, hsum]
          unfold csize
          omega
        have hle : s2._cur_size ≤ s._cur_size := by rw [hcur2, hcur, hsum]; omega
        obtain ⟨s1, m, e1, hm, hw1, hc1, hm1, hb1, hfit, hmax⟩ :=
          ih hw3 hcur2 (by omega) (fun x hx1 hx2 => H x (by omega) hx2) (by rw [hm2]; exact hP)
            (by simp only [List.length_append, List.length_singleton] at hf; omega)
        have htake : ∀ j, j ≤ R0.length → (R0 ++ [c]).take j = R0.take j :=
          fun j hj => List.take_append_of_le_length hj
        refine ⟨s1, m, ?_, ?_, ?_, ?_, hm1.trans hm2, hb1.trans hb2, ?_, ?_⟩
        · simp only [evict_loop, hc, if_true, h2, Option.some_bind]
          exact e1
        · simp only [List.length_append, List.length_singleton]; omega
        · rw [htake m hm]; exact hw1
        · rw [htake m hm]; exact hc1
        · rw [htake m hm, ← hm2]; exact hfit
        · intro j hj1 hj2
          simp only [List.length_append, List.length_singleton] at hj2
          by_cases hj3 : j ≤ R0.length
          · rw [htake j hj3, ← hm2]; exact hmax j hj1 hj3
          · have hj4 : j = (R0 ++ [c]).length := by
              simp only [List.length_append, List.length_singleton]; omega
            rw [hj4, List.take_length, ← hcur, ← hx]
            exact hc
    · refine ⟨s, R.length, ?_, le_refl _, ?_, ?_, rfl, rfl, ?_, ?_⟩
      · simp only [evict_loop, hc, if_false]
      · rw [List.take_length]; exact hw
      · rw [List.take_length]; exact hcur
      · rw [List.take_length, ← hcur, ← hx]; exact not_lt.1 hc
      · intro j hj1 hj2; omega

theorem WF.length_lt {s : SimpleLRU} {L : List Cell} (hw : WF s L) : L.length < s.brk + 1 := by
  have := length_le_of_bound hw.nodup hw.bound
  simp only [List.length_map] at this
  omega

theorem PutImpl_exact {s : SimpleLRU} {L : List Cell} {k v : String} {es : Nat}
    (hw : WF s L) (hcur : s._cur_size = (L.map csize).sum)
    (hle : (L.map csize).sum ≤ s._max_size) (hC : s._max_size < 2 ^ 31)
    (hk : k ∉ L.map fun c => c.2.1) (hes : es = k.length + v.length)
    (hfit : es ≤ s._max_size) :
    ∃ s2 m, s.PutImpl k v es = some s2 ∧ m ≤ L.length ∧
      WF s2 ((s.brk, k, v) :: L.take m) ∧
      s2._cur_size = (((s.brk, k, v) :: L.take m).map csize).sum ∧
      (((s.brk, k, v) :: L.take m).map csize).sum ≤ s2._max_size ∧
      s2._max_size = s._max_size ∧
      ∀ j, m < j → j ≤ L.length → s._max_size < ((L.take j).map csize).sum + es := by
  have hw0 : WF s ([] ++ L) := hw
  obtain ⟨s1, m, e1, hm, hw1, hc1, hm1, hb1, hfit1, hmax⟩ :=
    evict_loop_exact es es 0 (s.brk + 1) hw0 hcur (by omega)
      (fun x hx _ => by rw [size_add_eq x es (by omega)]; omega)
      (by simpa using hfit) hw.length_lt
  simp only [List.nil_append, Nat.sub_zero] at hw1 hc1 hfit1 hmax
  have hk1 : k ∉ (L.take m).map fun c => c.2.1 :=
    fun h => hk ((List.Sublist.map _ (List.take_sublist m L)).subset h)
  obtain ⟨s2, h2, hw2, hc2, hm2⟩ := PutImpl_wf (v := v) e1 hw1 hk1
  rw [hb1] at hw2
  have hcs : csize (s.brk, k, v) = es := by rw [hes]; rfl
  refine ⟨s2, m, h2, hm, hw2, ?_, ?_, hm2.trans hm1, hmax⟩
  · rw [hc2, size_add_eq _ _ (by rw [hc1]; omega), hc1, List.map_cons, List.sum_cons, hcs]
    omega
  · rw [hm2, hm1, List.map_cons, List.sum_cons, hcs]
    omega

theorem set_value_wf {s : SimpleLRU} {c : Cell} {T : List Cell} {n : lru_node} (v : String)
    (cur : Nat) (hw : WF s (c :: T)) (hn : s.heap c.1 = some n) :
    WF { s with heap := Function.update s.heap c.1 (some { n with value := v }),
                _cur_size := cur } ((c.1, c.2.1, v) :: T) := by
  obtain ⟨ca, ck, cv⟩ := c
  refine ⟨hw.head, ?_, ?_, hw.nodup, hw.keys, ?_, ?_, hw.bound⟩
  · intro d hd
    have := hw.tail
    cases T with
    | nil =>
      simp at hd
      subst hd
      simpa using this
    | cons x l =>
      rw [List.getLast?_cons_cons] at this hd
      exact this d hd
  · exact hw.run.set_first_value v hn (nodup_cons_fst hw.nodup)
  · intro k a
    show s._lru_index k = some a ↔ _
    rw [hw.index]
    simp only [List.mem_cons, Prod.mk.injEq]
    constructor
    · rintro ⟨v2, ⟨e1, e2, -⟩ | h⟩
      · exact ⟨v, Or.inl ⟨e1, e2, rfl⟩⟩
      · exact ⟨v2, Or.inr h⟩
    · rintro ⟨v2, ⟨e1, e2, -⟩ | h⟩
      · exact ⟨cv, Or.inl ⟨e1, e2, rfl⟩⟩
      · exact ⟨v2, Or.inr h⟩
  · intro a ha
    have hd := SameDom.update hn { n with value := v }
    exact hw.live a (fun h => ha ((hd a).2 h))

theorem SetImpl_exact {s : SimpleLRU} {L1 L2 : List Cell} {c : Cell} {v : String}
    (hw : WF s (L1 ++ c :: L2)) (hcur : s._cur_size = ((L1 ++ c :: L2).map csize).sum)
    (hle : ((L1 ++ c :: L2).map csize).sum ≤ s._max_size) (hC : s._max_size < 2 ^ 31)
    (hfit : c.2.1.length + v.length ≤ s._max_size) :
    ∃ s2 m, s.SetImpl c.1 v = some s2 ∧ m ≤ (L1 ++ L2).length ∧
      WF s2 ((c.1, c.2.1, v) :: (L1 ++ L2).take m) ∧
      s2._cur_size = (((c.1, c.2.1, v) :: (L1 ++ L2).take m).map csize).sum ∧
      (((c.1, c.2.1, v) :: (L1 ++ L2).take m).map csize).sum ≤ s2._max_size ∧
      s2._max_size = s._max_size ∧
      ∀ j, m < j → j ≤ (L1 ++ L2).length →
        s._max_size < (((L1 ++ L2).take j).map csize).sum + (c.2.1.length + v.length) := by
  obtain ⟨n, hn, -, hnv⟩ := hw.run.lookup (c := c) (by simp)
  obtain ⟨s1, h1, hw1, hc1, hm1, hb1, -⟩ := node_to_head_wf hw
  have hsum : ((c :: (L1 ++ L2)).map csize).sum = ((L1 ++ c :: L2).map csize).sum := by
    simp only [List.map_append, List.map_cons, List.sum_append, List.sum_cons]
    omega
  have hcur1 : s1._cur_size = (([c] ++ (L1 ++ L2)).map csize).sum := by
    rw [hc1, hcur, ← hsum]; rfl
  have hcs : ([c].map csize).sum = c.2.1.length + c.2.2.length := by
    simp [csize]
  have hw1b : WF s1 ([c] ++ (L1 ++ L2)) := hw1
  have htot : s1._cur_size ≤ s1._max_size := by rw [hc1, hm1, hcur]; exact hle
  obtain ⟨s3, m, e3, hm, hw3, hc3, hm3, hb3, hfit3, hmax⟩ :=
    evict_loop_exact (to_size_t (to_int (size_sub v.length n.value.length)))
      v.length c.2.2.length (s1.brk + 1) hw1b hcur1 (by omega)
      (fun x hx hx2 => by
        rw [hnv]
        exact delta_exact x v.length c.2.2.length (by omega) (by omega) (by omega) (by omega))
      (by rw [hcs, hm1]; omega)
      (by have := hw1.length_lt; simp only [List.length_cons] at this; omega)
  have hw3b : WF s3 (c :: (L1 ++ L2).take m) := hw3
  obtain ⟨n3, hn3, -, hn3v⟩ := hw3b.run.lookup (c := c) (by simp)
  have hkey : ∀ T : List Cell, (([c] ++ T).map csize).sum =
      (T.map csize).sum + (c.2.1.length + c.2.2.length) := by
    intro T
    simp only [List.map_append, List.sum_append, hcs]
    omega
  have hkey2 : ∀ T : List Cell, (((c.1, c.2.1, v) :: T).map csize).sum =
      (T.map csize).sum + (c.2.1.length + v.length) := by
    intro T
    simp only [List.map_cons, List.sum_cons, csize]
    omega
  have e : s.SetImpl c.1 v = some
      { s3 with heap := Function.update s3.heap c.1 (some { n3 with value := v }),
                _cur_size := size_add s3._cur_size
                  (to_size_t (to_int (size_sub v.length n.value.length))) } := by
    simp only [SetImpl, hn, h1, Option.bind_eq_bind, Option.some_bind, e3, hn3]
  have h3c : s3._cur_size =
      (((L1 ++ L2).take m).map csize).sum + (c.2.1.length + c.2.2.length) := by
    rw [hc3, hkey]
  have hf3 : (((L1 ++ L2).take m).map csize).sum + (c.2.1.length + c.2.2.length) + v.length -
      c.2.2.length ≤ s._max_size := by
    rw [hkey, hm1] at hfit3
    exact hfit3
  have hwl : c.2.2.length ≤ s._max_size := by
    rw [hsum.symm] at hle
    have := hkey (L1 ++ L2)
    omega
  refine ⟨_, m, e, hm, set_value_wf v _ hw3b hn3, ?_, ?_, hm3.trans hm1, ?_⟩
  · show size_add s3._cur_size _ = _
    rw [hnv, delta_exact _ _ _ (by omega) (by omega) (by rw [h3c]; omega)
      (by rw [h3c]; omega), h3c, hkey2]
    omega
  · show _ ≤ s3._max_size
    rw [hkey2, hm3, hm1]
    omega
  · intro j hj1 hj2
    have := hmax j hj1 hj2
    rw [hkey, hm1] at this
    omega

theorem Put_absent_exact {s : SimpleLRU} {L : List Cell} {k v : String}
    (hs : Sized s L) (hC : s._max_size < 2 ^ 31) (hi : s._lru_index k = none)
    (hfit : k.length + v.length ≤ s._max_size) :
    ∃ s2 m, s.Put k v = some (true, s2) ∧ s.PutIfAbsent k v = some (true, s2) ∧
      m ≤ L.length ∧ Sized s2 ((s.brk, k, v) :: L.take m) ∧ s2._max_size = s._max_size ∧
      ((L.take m).map csize).sum + (k.length + v.length) ≤ s._max_size ∧
      ∀ j, m < j → j ≤ L.length →
        s._max_size < ((L.take j).map csize).sum + (k.length + v.length) := by
  obtain ⟨s2, m, h2, hm, hw2, hc2, hle2, hm2, hmax⟩ :=
    PutImpl_exact (v := v) hs.wf hs.cur hs.le hC (hs.wf.index_none hi) rfl hfit
  have hc : ¬ k.length + v.length > s._max_size := not_lt.2 hfit
  refine ⟨s2, m, ?_, ?_, hm, ⟨hw2, hc2, hle2⟩, hm2, ?_, hmax⟩
  · simp only [Put, hc, if_false, hi, h2, Option.map_some']
  · simp only [PutIfAbsent, hc, if_false, hi, h2, Option.map_some']
  · rw [hm2] at hle2
    simp only [List.map_cons, List.sum_cons, csize] at hle2 ⊢
    omega

theorem Put_present_exact {s : SimpleLRU} {L1 L2 : List Cell} {c : Cell} {v : String}
    (hs : Sized s (L1 ++ c :: L2)) (hC : s._max_size < 2 ^ 31)
    (hfit : c.2.1.length + v.length ≤ s._max_size) :
    ∃ s2 m, s.Put c.2.1 v = some (true, s2) ∧ s.Set c.2.1 v = some (none, s2) ∧
      m ≤ (L1 ++ L2).length ∧ Sized s2 ((c.1, c.2.1, v) :: (L1 ++ L2).take m) ∧
      s2._max_size = s._max_size ∧
      (((L1 ++ L2).take m).map csize).sum + (c.2.1.length + v.length) ≤ s._max_size ∧
      ∀ j, m < j → j ≤ (L1 ++ L2).length →
        s._max_size < (((L1 ++ L2).take j).map csize).sum + (c.2.1.length + v.length) := by
  obtain ⟨s2, m, h2, hm, hw2, hc2, hle2, hm2, hmax⟩ :=
    SetImpl_exact (v := v) hs.wf hs.cur hs.le hC hfit
  have hc : ¬ c.2.1.length + v.length > s._max_size := not_lt.2 hfit
  have hi := hs.wf.index_of_mem (c := c) (by simp)
  refine ⟨s2, m, ?_, ?_, hm, ⟨hw2, hc2, hle2⟩, hm2, ?_, hmax⟩
  · simp only [Put, hc, if_false, hi, h2, Option.map_some']
  · simp only [SimpleLRU.Set, hc, if_false, hi, h2, Option.map_some']
  · rw [hm2] at hle2
    simp only [List.map_cons, List.sum_cons, csize] at hle2 ⊢
    omega

theorem Delete_sized {s : SimpleLRU} {L1 L2 : List Cell} {c : Cell}
    (hs : Sized s (L1 ++ c :: L2)) (hC : s._max_size < 2 ^ 31) :
    ∃ s2, s.Delete c.2.1 = some (true, s2) ∧ Sized s2 (L1 ++ L2) ∧
      s2._max_size = s._max_size ∧
      s2._cur_size + (c.2.1.length + c.2.2.length) = s._cur_size := by
  obtain ⟨s2, h2, hw2, hc2, hm2, -, -⟩ := Delete_wf hs.wf
  have hsum : ((L1 ++ c :: L2).map csize).sum =
      ((L1 ++ L2).map csize).sum + (c.2.1.length + c.2.2.length) := by
    simp only [List.map_append, List.map_cons, List.sum_append, List.sum_cons, csize]
    omega
  have hle := hs.le
  have hcur := hs.cur
  have hc3 : s2._cur_size = ((L1 ++ L2).map csize).sum := by
    rw [hc2, size_sub_eq _ _ (by omega) (by omega)]
    omega
  refine ⟨s2, h2, ⟨hw2, hc3, by rw [hm2]; omega⟩, hm2, by omega⟩

theorem Get_sized {s : SimpleLRU} {L1 L2 : List Cell} {c : Cell}
    (hs : Sized s (L1 ++ c :: L2)) (out : String) :
    ∃ s2, s.Get c.2.1 out = some (true, c.2.2, s2) ∧ Sized s2 (c :: (L1 ++ L2)) ∧
      s2._max_size = s._max_size := by
  obtain ⟨s2, h2, hw2, hc2, hm2, -, -⟩ := Get_wf hs.wf out
  have hsum : ((c :: (L1 ++ L2)).map csize).sum = ((L1 ++ c :: L2).map csize).sum := by
    simp only [List.map_append, List.map_cons, List.sum_append, List.sum_cons]
    omega
  exact ⟨s2, h2, ⟨hw2, by rw [hc2, hs.cur, hsum], by rw [hm2, hsum]; exact hs.le⟩, hm2⟩

theorem step_sized {s : SimpleLRU} {L : List Cell} (hs : Sized s L) (hC : s._max_size < 2 ^ 31)
    (c : Call) : ∃ s2 L2, step s c = some s2 ∧ Sized s2 L2 ∧ s2._max_size = s._max_size := by
  cases c with
  | Put k v =>
    by_cases hfit : k.length + v.length ≤ s._max_size
    · cases hi : s._lru_index k with
      | none =>
        obtain ⟨s2, m, h2, -, -, hs2, hm2, -⟩ := Put_absent_exact hs hC hi hfit
        exact ⟨s2, _, by simp [step, h2], hs2, hm2⟩
      | some a =>
        obtain ⟨L1, w, L2, rfl⟩ := hs.wf.split_of_index hi
        obtain ⟨s2, m, h2, -, -, hs2, hm2, -⟩ :=
          Put_present_exact (c := (a, k, w)) (v := v) hs hC hfit
        exact ⟨s2, _, by simp [step, h2], hs2, hm2⟩
    · exact ⟨s, L, by simp [step, Put, not_le.1 hfit], hs, rfl⟩
  | PutIfAbsent k v =>
    by_cases hfit : k.length + v.length ≤ s._max_size
    · cases hi : s._lru_index k with
      | none =>
        obtain ⟨s2, m, -, h2, -, hs2, hm2, -⟩ := Put_absent_exact hs hC hi hfit
        exact ⟨s2, _, by simp [step, h2], hs2, hm2⟩
      | some a =>
        exact ⟨s, L, by simp [step, PutIfAbsent, not_lt.2 hfit, hi], hs, rfl⟩
    · exact ⟨s, L, by simp [step, PutIfAbsent, not_le.1 hfit], hs, rfl⟩
  | Set k v =>
    by_cases hfit : k.length + v.length ≤ s._max_size
    · cases hi : s._lru_index k with
      | none =>
        exact ⟨s, L, by simp [step, SimpleLRU.Set, not_lt.2 hfit, hi], hs, rfl⟩
      | some a =>
        obtain ⟨L1, w, L2, rfl⟩ := hs.wf.split_of_index hi
        obtain ⟨s2, m, -, h2, -, hs2, hm2, -⟩ :=
          Put_present_exact (c := (a, k, w)) (v := v) hs hC hfit
        exact ⟨s2, _, by simp [step, h2], hs2, hm2⟩
    · exact ⟨s, L, by simp [step, SimpleLRU.Set, not_le.1 hfit], hs, rfl⟩
  | Delete k =>
    cases hi : s._lru_index k with
    | none => exact ⟨s, L, by simp [step, Delete, hi], hs, rfl⟩
    | some a =>
      obtain ⟨L1, w, L2, rfl⟩ := hs.wf.split_of_index hi
      obtain ⟨s2, h2, hs2, hm2, -⟩ := Delete_sized (c := (a, k, w)) hs hC
      exact ⟨s2, _, by simp [step, h2], hs2, hm2⟩
  | Get k v =>
    cases hi : s._lru_index k with
    | none => exact ⟨s, L, by simp [step, Get, hi], hs, rfl⟩
    | some a =>
      obtain ⟨L1, w, L2, rfl⟩ := hs.wf.split_of_index hi
      obtain ⟨s2, h2, hs2, hm2⟩ := Get_sized (c := (a, k, w)) hs v
      exact ⟨s2, _, by simp [step, h2], hs2, hm2⟩

theorem run_sized {s s2 : SimpleLRU} {L : List Cell} {cs : List Call}
    (hs : Sized s L) (hC : s._max_size < 2 ^ 31) (he : run s cs = some s2) :
    ∃ L2, Sized s2 L2 ∧ s2._max_size = s._max_size := by
  induction cs generalizing s L with
  | nil =>
    simp only [run, Option.some.injEq] at he
    subst he
    exact ⟨L, hs, rfl⟩
  | cons c cs ih =>
    obtain ⟨s1, L1, h1, hs1, hm1⟩ := step_sized hs hC c
    simp only [run, h1, Option.some_bind] at he
    obtain ⟨L2, hs2, hm2⟩ := ih hs1 (by rw [hm1]; exact hC) he
    exact ⟨L2, hs2, hm2.trans hm1⟩

theorem Reachable.sized {C : Nat} {s : SimpleLRU} (hC : C < 2 ^ 31) (hr : Reachable C s) :
    ∃ L, Sized s L ∧ s._max_size = C := by
  obtain ⟨cs, h⟩ := hr
  exact run_sized (s := init C) (L := []) ⟨init_wf C, rfl, by simp⟩ hC h

theorem take_eq_longest_fit (E : List Cell) (room m : Nat) (hm : m ≤ E.length)
    (hfit : ((E.take m).map csize).sum ≤ room)
    (hmax : ∀ j, m < j → j ≤ E.length → room < ((E.take j).map csize).sum) :
    (E.take m).map (fun c => (c.2.1, c.2.2)) =
      longest_fit room (E.map fun c => (c.2.1, c.2.2)) := by
  induction E generalizing m room with
  | nil => simp [longest_fit]
  | cons e E ih =>
    cases m with
    | zero =>
      have h1 := hmax 1 (by omega) (by simp)
      simp only [List.take_succ_cons, List.take_zero, List.map_cons, List.map_nil,
        List.sum_cons, List.sum_nil, csize] at h1
      simp only [List.take_zero, List.map_nil, List.map_cons, longest_fit, entry_size]
      rw [if_neg (by omega)]
    | succ m =>
      simp only [List.take_succ_cons, List.map_cons, List.sum_cons, csize] at hfit
      simp only [List.take_succ_cons, List.map_cons, longest_fit, entry_size]
      rw [if_pos (by omega)]
      congr 1
      apply ih
      · simpa using hm
      · omega
      · intro j hj1 hj2
        have := hmax (j + 1) (by omega) (by simpa using hj2)
        simp only [List.take_succ_cons, List.map_cons, List.sum_cons, csize] at this
        omega

theorem WF.total_size_eq {s : SimpleLRU} {L : List Cell} (hw : WF s L) :
    s.total_size = (L.map csize).sum := by
  unfold total_size
  rw [hw.entries_eq, List.map_map]
  rfl

/-- Size invariant for capacities below 2 GiB: in every state reachable in a
cache of capacity `C < 2^31`, `_cur_size` is the number of bytes in the chain
and does not exceed `C`; and no call has undefined behaviour there. -/
theorem size_invariant_bounded (C : Nat) (hC : C < 2 ^ 31) (s : SimpleLRU)
    (hr : Reachable C s) :
    s._cur_size = s.total_size ∧ s._cur_size ≤ C ∧ ∀ c : Call, (step s c).isSome = true := by
  obtain ⟨L, hs, hm⟩ := Reachable.sized hC hr
  refine ⟨by rw [hs.wf.total_size_eq, hs.cur], by rw [hs.cur, ← hm]; exact hs.le, fun c => ?_⟩
  obtain ⟨s2, L2, h2, -⟩ := step_sized hs (by rw [hm]; exact hC) c
  rw [h2]; rfl

/-- Admission boundary for capacities below 2 GiB: `Put` returns true exactly when
the entry has at most `C` bytes, whatever the cache holds. -/
theorem put_admission_bounded (C : Nat) (hC : C < 2 ^ 31) (s : SimpleLRU)
    (hr : Reachable C s) (k v : String) :
    ∃ s2, s.Put k v = some (decide (k.length + v.length ≤ C), s2) := by
  obtain ⟨L, hs, hm⟩ := Reachable.sized hC hr
  have hC2 : s._max_size < 2 ^ 31 := by rw [hm]; exact hC
  by_cases hfit : k.length + v.length ≤ C
  · rw [decide_eq_true hfit]
    cases hi : s._lru_index k with
    | none =>
      obtain ⟨s2, m, h2, -⟩ := Put_absent_exact hs hC2 hi (by rw [hm]; exact hfit)
      exact ⟨s2, h2⟩
    | some a =>
      obtain ⟨L1, w, L2, rfl⟩ := hs.wf.split_of_index hi
      obtain ⟨s2, m, h2, -⟩ :=
        Put_present_exact (c := (a, k, w)) (v := v) hs hC2 (by rw [hm]; exact hfit)
      exact ⟨s2, h2⟩
  · rw [decide_eq_false hfit]
    exact ⟨s, by simp [Put, hm, not_le.1 hfit]⟩

/-- Eviction order for capacities below 2 GiB: a `Put` (or `PutIfAbsent`) of an
absent key that fits puts the new entry at the head, followed by the longest
prefix of the old chain that fits beside it. -/
theorem eviction_order_bounded (C : Nat) (hC : C < 2 ^ 31) (s : SimpleLRU)
    (hr : Reachable C s) (k v : String) (hi : s._lru_index k = none)
    (hfit : k.length + v.length ≤ C) :
    ∃ s2, s.Put k v = some (true, s2) ∧ s.PutIfAbsent k v = some (true, s2) ∧
      s2.entries = (k, v) :: longest_fit (C - (k.length + v.length)) s.entries := by
  obtain ⟨L, hs, hm⟩ := Reachable.sized hC hr
  have hC2 : s._max_size < 2 ^ 31 := by rw [hm]; exact hC
  obtain ⟨s2, m, h2, h3, hml, hs2, -, hf, hmax⟩ :=
    Put_absent_exact (v := v) hs hC2 hi (by rw [hm]; exact hfit)
  refine ⟨s2, h2, h3, ?_⟩
  rw [hs2.wf.entries_eq, hs.wf.entries_eq, List.map_cons]
  congr 1
  apply take_eq_longest_fit L _ m hml
  · rw [hm] at hf; omega
  · intro j hj1 hj2
    have := hmax j hj1 hj2
    rw [hm] at this
    omega

/-- Set on a present key for capacities below 2 GiB: `Set` (and `Put`) of a
present key with an entry that fits leaves the entry at the head with the new
value, followed by the longest prefix of the other entries that fits beside
it. -/
theorem set_present_bounded (C : Nat) (hC : C < 2 ^ 31) (s : SimpleLRU)
    (hr : Reachable C s) (k v : String) (a : Nat) (hi : s._lru_index k = some a)
    (hfit : k.length + v.length ≤ C) :
    ∃ s2, s.Set k v = some (none, s2) ∧ s.Put k v = some (true, s2) ∧
      s2.entries = (k, v) :: longest_fit (C - (k.length + v.length))
        (s.entries.filter (fun e => decide (e.1 ≠ k))) := by
  obtain ⟨L, hs, hm⟩ := Reachable.sized hC hr
  have hC2 : s._max_size < 2 ^ 31 := by rw [hm]; exact hC
  obtain ⟨L1, w, L2, rfl⟩ := hs.wf.split_of_index hi
  obtain ⟨s2, m, h2, h3, hml, hs2, -, hf, hmax⟩ :=
    Put_present_exact (c := (a, k, w)) (v := v) hs hC2 (by rw [hm]; exact hfit)
  refine ⟨s2, h3, h2, ?_⟩
  have hfk := filter_key (c := (a, k, w)) hs.wf.keys
  rw [hs2.wf.entries_eq, hs.wf.entries_eq, List.map_cons, hfk]
  congr 1
  apply take_eq_longest_fit (L1 ++ L2) _ m hml
  · rw [hm] at hf
    simp only at hf
    omega
  · intro j hj1 hj2
    have := hmax j hj1 hj2
    rw [hm] at this
    simp only at this
    omega

/-- Delete of a present key for capacities below 2 GiB: the entry leaves chain and
index, the other entries keep their order, and `_cur_size` decreases by the
size of the entry. -/
theorem delete_present_bounded (C : Nat) (hC : C < 2 ^ 31) (s : SimpleLRU)
    (hr : Reachable C s) (k : String) (a : Nat) (hi : s._lru_index k = some a) :
    ∃ w s2, (k, w) ∈ s.entries ∧ s.Delete k = some (true, s2) ∧
      s2.entries = s.entries.filter (fun e => decide (e.1 ≠ k)) ∧
      s2._lru_index k = none ∧ s2._cur_size + (k.length + w.length) = s._cur_size ∧
      ∀ out, s2.Get k out = some (false, out, s2) := by
  obtain ⟨L, hs, hm⟩ := Reachable.sized hC hr
  have hC2 : s._max_size < 2 ^ 31 := by rw [hm]; exact hC
  obtain ⟨L1, w, L2, rfl⟩ := hs.wf.split_of_index hi
  obtain ⟨s2, h2, hs2, -, hc2⟩ := Delete_sized (c := (a, k, w)) hs hC2
  have hfk := filter_key (c := (a, k, w)) hs.wf.keys
  have hnone : s2._lru_index k = none := by
    cases hi2 : s2._lru_index k with
    | none => rfl
    | some b =>
      obtain ⟨v2, hv2⟩ := (hs2.wf.index k b).1 hi2
      exact absurd rfl ((mem_remove_iff (c := (a, k, w)) hs.wf.keys _).1 hv2).2
  refine ⟨w, s2, ?_, h2, ?_, hnone, hc2, fun out => ?_⟩
  · rw [hs.wf.entries_eq]
    exact List.mem_map.2 ⟨(a, k, w), by simp, rfl⟩
  · rw [hs2.wf.entries_eq, hs.wf.entries_eq, hfk]
  · simp [Get, hnone]

end Backend
end Afina
